import Mathlib

/-
Verification of the perspector core (src/perspector.c): anchor classifier,
homography system of equations, and the two-pass resampler.

Modelling conventions, stated once here:
* `coord` (int32_t) is modelled by `Int`. The repository only exercises
  coordinates far from the int32 boundaries, and no claim is about wraparound.
* `double` is modelled by the exact rationals `ℚ`. All concrete inputs used in
  witnesses and counterexamples keep every intermediate C computation exact in
  binary64 (quarter-integers and small products), so the exact model and the
  C arithmetic agree there.
* `qsort` is modelled by insertion sort. qsort's output is unspecified on ties;
  all statements proved below are insensitive to the tie order (assignments are
  derived from strict comparisons on the sorted values), and the concrete
  inputs used for counterexamples give the comparators a strict total order on
  the four anchors, where every comparison sort returns the same list.
* Division by zero: where the C code would divide by zero or run a loop whose
  step is zero, the model returns a distinguished error value
  (`PError.divisionByZero`, `Option.none`) instead of a number.
-/

namespace Perspector

/-- A pixel: discrete pair of coordinates (C struct `pixel`, `coord` = int32_t). -/
structure Pixel where
  x : Int
  y : Int
deriving DecidableEq, Repr

/-- Default pixel used to totalise list indexing. The C code indexes anchor
arrays of exactly 4 entries, so the default is never read in the claims. -/
def pd : Pixel := ⟨0, 0⟩

/-- C enum `position`: relative position of one direction vector to another. -/
inductive Position where
  | LEFT
  | RIGHT
  | EQUAL
  | OPPOSED
  | UNDEF
deriving DecidableEq, Repr

/-- The numeric values of the C `position` enum constants. -/
def Position.val : Position → Nat
  | .LEFT => 1
  | .RIGHT => 2
  | .EQUAL => 4
  | .OPPOSED => 8
  | .UNDEF => 16

/-- C struct `rect`: the four corners (bottom-left, bottom-right, top-right,
top-left) assigned to the anchors. -/
structure Rect where
  bl : Pixel
  br : Pixel
  tr : Pixel
  tl : Pixel
deriving DecidableEq, Repr

/-- C struct `color`: four 8-bit channels, stored blue, green, red, alpha. -/
structure Color where
  blue : Nat
  green : Nat
  red : Nat
  alpha : Nat
deriving DecidableEq, Repr

/-- COORD_MAX = INT32_MAX. -/
def COORD_MAX : Int := 2147483647

/-- A `point` (C struct of two doubles) relative to the barycentre:
`{ p.x - bar.x, p.y - bar.y }`. -/
def toPoint (bar : ℚ × ℚ) (p : Pixel) : ℚ × ℚ :=
  ((p.x : ℚ) - bar.1, (p.y : ℚ) - bar.2)

/-- C function `pos`: position of point `p` with respect to the vector from
the origin through `refn`. Direct transcription of the branch structure. -/
def pos (p refn : ℚ × ℚ) : Position :=
  if (p.1 = 0 ∧ p.2 = 0) ∨ (refn.1 = 0 ∧ refn.2 = 0) then .UNDEF
  else if p.2 * refn.1 - refn.2 * p.1 = 0 then
    if p.1 * refn.1 > 0 then .EQUAL else .OPPOSED
  else if refn.1 = 0 then
    if (refn.2 > 0 ∧ p.1 < 0) ∨ (refn.2 < 0 ∧ p.1 > 0) then .LEFT else .RIGHT
  else if (refn.1 < 0 ∧ p.2 < p.1 * refn.2 / refn.1) ∨
          (refn.1 > 0 ∧ p.2 > p.1 * refn.2 / refn.1) then .LEFT
  else .RIGHT

/-- C function `compare_angle`, with the two globals (`bar`, `ref`) passed
explicitly. Returns -1, 0 or 1 like the qsort comparator. -/
def compare_angle (bar : ℚ × ℚ) (ref a b : Pixel) : Int :=
  let refn := toPoint bar ref
  let an := toPoint bar a
  let bn := toPoint bar b
  let an_refn := pos an refn
  let an_bn := pos an bn
  let bn_refn := pos bn refn
  if an_bn = .EQUAL ∨ an_bn = .UNDEF then 0
  else if an_refn = .EQUAL
      ∨ (bn_refn = .LEFT ∧ an_refn = .LEFT ∧ an_bn = .RIGHT)
      ∨ (bn_refn = .RIGHT ∧ (an_bn = .RIGHT ∨ an_refn = .LEFT))
      ∨ (bn_refn = .OPPOSED ∧ an_refn = .LEFT) then -1
  else 1

/-- Ordering used by `psort(set, DIR_X)` (qsort with `comparex`). -/
def xLe (p q : Pixel) : Prop := p.x ≤ q.x

/-- Ordering used by `psort(set, DIR_Y)` (qsort with `comparey`). -/
def yLe (p q : Pixel) : Prop := p.y ≤ q.y

instance : DecidableRel xLe := fun p q => inferInstanceAs (Decidable (p.x ≤ q.x))

instance : DecidableRel yLe := fun p q => inferInstanceAs (Decidable (p.y ≤ q.y))

instance : IsTotal Pixel xLe := ⟨fun a b => Int.le_total a.x b.x⟩

instance : IsTrans Pixel xLe := ⟨fun _ _ _ h1 h2 => le_trans h1 h2⟩

instance : IsTotal Pixel yLe := ⟨fun a b => Int.le_total a.y b.y⟩

instance : IsTrans Pixel yLe := ⟨fun _ _ _ h1 h2 => le_trans h1 h2⟩

/-- `psort(&set, DIR_X)`: sort the anchors by x ascending. -/
def psortX (l : List Pixel) : List Pixel := List.insertionSort xLe l

/-- `psort(&set, DIR_Y)`: sort the anchors by y ascending. -/
def psortY (l : List Pixel) : List Pixel := List.insertionSort yLe l

/-- The ordering induced on the anchors by `compare_angle` (non-positive
comparator result, as used by qsort). -/
def angLe (bar : ℚ × ℚ) (ref : Pixel) (p q : Pixel) : Prop :=
  compare_angle bar ref p q ≤ 0

instance (bar : ℚ × ℚ) (ref : Pixel) : DecidableRel (angLe bar ref) :=
  fun p q => inferInstanceAs (Decidable (compare_angle bar ref p q ≤ 0))

/-- C function `check_order`: find `bl` in `order` (first match, or
`order.count` when absent) and check that the following three entries,
cyclically modulo 4, are `br`, `tr`, `tl`. -/
def check_order (order : List Pixel) (bl br tr tl : Pixel) : Bool :=
  let i := order.findIdx (fun p => p = bl)
  decide (order.getD ((i + 1) % 4) pd = br)
    && decide (order.getD ((i + 2) % 4) pd = tr)
    && decide (order.getD ((i + 3) % 4) pd = tl)

/-- Barycentre of the four anchors (C: `bar.x = (a.x+b.x+c.x+d.x)/4` etc.,
computed in double, here exactly in ℚ). -/
def barycentre (anchors : List Pixel) : ℚ × ℚ :=
  let a := anchors.getD 0 pd
  let b := anchors.getD 1 pd
  let c := anchors.getD 2 pd
  let d := anchors.getD 3 pd
  (((a.x + b.x + c.x + d.x : Int) : ℚ) / 4, ((a.y + b.y + c.y + d.y : Int) : ℚ) / 4)

/-- `UNDESIRED = EQUAL | OPPOSED | UNDEF` — a bit-or of enum values (28). -/
def UNDESIRED : Nat := 4 ||| 8 ||| 16

/-- The collinear/coincident rejection test of `projectable`, as written in the
C source: each pairwise `pos` result is compared with `==` against the bit-or
`UNDESIRED`, a value `pos` never returns. -/
def undesired_check (anchors : List Pixel) : Bool :=
  let bar := barycentre anchors
  let an := toPoint bar (anchors.getD 0 pd)
  let bn := toPoint bar (anchors.getD 1 pd)
  let cn := toPoint bar (anchors.getD 2 pd)
  let dn := toPoint bar (anchors.getD 3 pd)
  decide ((pos an bn).val = UNDESIRED) || decide ((pos an cn).val = UNDESIRED)
    || decide ((pos an dn).val = UNDESIRED) || decide ((pos bn cn).val = UNDESIRED)
    || decide ((pos bn dn).val = UNDESIRED) || decide ((pos cn dn).val = UNDESIRED)

/-- Corner assignment from the x-sorted anchors (shared by the direct case and
the x-splitting candidate of `projectable`). -/
def xsplit_assign (xs : List Pixel) : Rect :=
  let x0 := xs.getD 0 pd
  let x1 := xs.getD 1 pd
  let x2 := xs.getD 2 pd
  let x3 := xs.getD 3 pd
  { bl := if x0.y < x1.y then x0 else x1
    tl := if x0.y < x1.y then x1 else x0
    br := if x2.y < x3.y then x2 else x3
    tr := if x2.y < x3.y then x3 else x2 }

/-- Corner assignment from the y-sorted anchors (the y-splitting candidate of
`projectable`). -/
def ysplit_assign (ys : List Pixel) : Rect :=
  let y0 := ys.getD 0 pd
  let y1 := ys.getD 1 pd
  let y2 := ys.getD 2 pd
  let y3 := ys.getD 3 pd
  { bl := if y0.x < y1.x then y0 else y1
    br := if y0.x < y1.x then y1 else y0
    tl := if y2.x < y3.x then y2 else y3
    tr := if y2.x < y3.x then y3 else y2 }

/-- The guard of the first branch of `projectable` ("1 pixel in each
partition"): middle x-values differ, some low-pair y is below some high-pair y,
some low-pair y is above some high-pair y, and the high pair's y-values differ. -/
def direct_cond (xs : List Pixel) : Prop :=
  let x0 := xs.getD 0 pd
  let x1 := xs.getD 1 pd
  let x2 := xs.getD 2 pd
  let x3 := xs.getD 3 pd
  x1.x ≠ x2.x
    ∧ (x0.y < x2.y ∨ x0.y < x3.y ∨ x1.y < x2.y ∨ x1.y < x3.y)
    ∧ (x0.y > x2.y ∨ x0.y > x3.y ∨ x1.y > x2.y ∨ x1.y > x3.y)
    ∧ x2.y ≠ x3.y

instance (xs : List Pixel) : Decidable (direct_cond xs) := by
  unfold direct_cond; infer_instance

/-- The guard of the second branch of `projectable` ("2 pixels on a split
axis"): equal middle x-values or equal middle y-values. -/
def degenerate_cond (anchors : List Pixel) : Prop :=
  ((psortX anchors).getD 1 pd).x = ((psortX anchors).getD 2 pd).x
    ∨ ((psortY anchors).getD 1 pd).y = ((psortY anchors).getD 2 pd).y

instance (anchors : List Pixel) : Decidable (degenerate_cond anchors) := by
  unfold degenerate_cond; infer_instance

/-- The trigonometric order of the anchors around their barycentre, with the
first anchor as reference: qsort with `compare_angle` (`ref = a`). -/
def angular_order (anchors : List Pixel) : List Pixel :=
  List.insertionSort (angLe (barycentre anchors) (anchors.getD 0 pd)) anchors

/-- Validity guard of the x-splitting candidate in the diagonal case. -/
def x_split_cond (xs : List Pixel) : Prop :=
  (xs.getD 1 pd).x ≠ (xs.getD 2 pd).x
    ∧ (xs.getD 0 pd).y ≠ (xs.getD 1 pd).y
    ∧ (xs.getD 2 pd).y ≠ (xs.getD 3 pd).y

instance (xs : List Pixel) : Decidable (x_split_cond xs) := by
  unfold x_split_cond; infer_instance

/-- Validity guard of the y-splitting candidate in the diagonal case. -/
def y_split_cond (ys : List Pixel)  : Prop :=
  (ys.getD 1 pd).y ≠ (ys.getD 2 pd).y
    ∧ (ys.getD 0 pd).x ≠ (ys.getD 1 pd).x
    ∧ (ys.getD 2 pd).x ≠ (ys.getD 3 pd).x

instance (ys : List Pixel) : Decidable (y_split_cond ys) := by
  unfold y_split_cond; infer_instance

/-- `x_ok` of the diagonal case: the x-splitting candidate is valid and its
corner sequence matches the angular order. -/
def x_candidate_ok (anchors : List Pixel) : Prop :=
  let xs := psortX anchors
  let r := xsplit_assign xs
  x_split_cond xs ∧ check_order (angular_order anchors) r.bl r.br r.tr r.tl = true

instance (anchors : List Pixel) : Decidable (x_candidate_ok anchors) := by
  unfold x_candidate_ok; infer_instance

/-- `y_ok` of the diagonal case: the y-splitting candidate is valid and its
corner sequence matches the angular order. -/
def y_candidate_ok (anchors : List Pixel) : Prop :=
  let ys := psortY anchors
  let r := ysplit_assign ys
  y_split_cond ys ∧ check_order (angular_order anchors) r.bl r.br r.tr r.tl = true

instance (anchors : List Pixel) : Decidable (y_candidate_ok anchors) := by
  unfold y_candidate_ok; infer_instance

/-- C function `projectable`: assign the four anchors to rectangle corners, or
reject the configuration. `none` models `return false`. -/
def projectable (anchors : List Pixel) : Option Rect :=
  let xsorted := psortX anchors
  let ysorted := psortY anchors
  if direct_cond xsorted then
    some (xsplit_assign xsorted)
  else if degenerate_cond anchors then
    none
  else if undesired_check anchors = true then
    none
  else if y_candidate_ok anchors ∧ ¬ x_candidate_ok anchors then
    some (ysplit_assign ysorted)
  else if x_candidate_ok anchors ∧ ¬ y_candidate_ok anchors then
    some (xsplit_assign xsorted)
  else
    none

/-- C function `init_system_equation`: the 9×9 homogeneous system (8 populated
rows and one zero row), one row per list entry, transcribed from the
`MATRIX_ROW` lines of the source. -/
def system_equation (bl br tr tl : Pixel) (w h : ℚ) : List (List ℚ) :=
  [ [bl.x, bl.y, 1, 0, 0, 0, 0, 0, 0]
  , [0, 0, 0, bl.x, bl.y, 1, 0, 0, 0]
  , [br.x, br.y, 1, 0, 0, 0, -w * br.x, -w * br.y, -w]
  , [0, 0, 0, br.x, br.y, 1, 0, 0, 0]
  , [tr.x, tr.y, 1, 0, 0, 0, -w * tr.x, -w * tr.y, -w]
  , [0, 0, 0, tr.x, tr.y, 1, -h * tr.x, -h * tr.y, -h]
  , [tl.x, tl.y, 1, 0, 0, 0, 0, 0, 0]
  , [0, 0, 0, tl.x, tl.y, 1, -h * tl.x, -h * tl.y, -h]
  , [0, 0, 0, 0, 0, 0, 0, 0, 0] ]

/-- Dot product of a system row with the matrix coefficients. -/
def rowDot : List ℚ → List ℚ → ℚ
  | a :: row, b :: m => a * b + rowDot row m
  | _, _ => 0

/-- `m` solves the homogeneous system for the given correspondence. -/
def solves_system (bl br tr tl : Pixel) (w h : ℚ) (m : List ℚ) : Prop :=
  ∀ row ∈ system_equation bl br tr tl w h, rowDot row m = 0

instance (bl br tr tl : Pixel) (w h : ℚ) (m : List ℚ) :
    Decidable (solves_system bl br tr tl w h m) := by
  unfold solves_system; infer_instance

/-- Modelled from the spec: `gsl_linalg_SV_decomp` is external library code
(GSL); per the spec the transform matrix returned by `make_transform_matrix`
is the null-space solution of the homogeneous system, "defined up to an
arbitrary nonzero scale factor". `m` is a possible output of
`make_transform_matrix` iff the classifier accepted the anchors with corners
`r` and `m` is a nonzero solution of the system built from `r`. -/
def make_transform_matrix (anchors : List Pixel) (w h : Int) (m : List ℚ) : Prop :=
  ∃ r : Rect, projectable anchors = some r
    ∧ solves_system r.bl r.br r.tr r.tl (w : ℚ) (h : ℚ) m
    ∧ m.length = 9 ∧ m ≠ List.replicate 9 (0 : ℚ)

/-- C `round`: round half away from zero (returns the integer value). -/
def roundHalfAway (q : ℚ) : Int :=
  if 0 ≤ q then ⌊q + 1/2⌋ else ⌈q - 1/2⌉

/-- Entry `i` of the flat 9-element transform matrix. -/
def mAt (m : List ℚ) (i : Nat) : ℚ := m.getD i 0

/-- `gsl_blas_dgemv` of the 3×3 transform matrix with `[x, y, 1]`. -/
def applyMatrix (m : List ℚ) (x y : ℚ) : ℚ × ℚ × ℚ :=
  (mAt m 0 * x + mAt m 1 * y + mAt m 2,
   mAt m 3 * x + mAt m 4 * y + mAt m 5,
   mAt m 6 * x + mAt m 7 * y + mAt m 8)

/-- Destination pixel of a source pixel: `round(pout[0]/pout[2])`,
`round(pout[1]/pout[2])`. -/
def destPixel (m : List ℚ) (x y : Int) : Int × Int :=
  let pout := applyMatrix m (x : ℚ) (y : ℚ)
  (roundHalfAway (pout.1 / pout.2.2), roundHalfAway (pout.2.1 / pout.2.2))

/-- Pointwise update of a raster (flat-indexed array of colors). -/
def updColor (f : Int → Color) (i : Int) (c : Color) : Int → Color :=
  fun j => if j = i then c else f j

/-- Pointwise update of the transformed mask. -/
def updBool (f : Int → Bool) (i : Int) (b : Bool) : Int → Bool :=
  fun j => if j = i then b else f j

/-- The scan order of a double loop `for (x = 0; x < w; x++) for (y = 0;
y < h; y++)`: x outer, y inner, both ascending. -/
def scanList (w h : Int) : List (Int × Int) :=
  (List.range w.toNat).flatMap
    (fun i => (List.range h.toNat).map (fun j => (Int.ofNat i, Int.ofNat j)))

/-- One iteration of the forward-mapping pass: transform the source pixel,
and copy + mark it when the destination is in bounds. -/
def forward_step (m : List ℚ) (sw sh bw : Int) (bg : Int → Color)
    (sm : (Int → Color) × (Int → Bool)) (p : Int × Int) :
    (Int → Color) × (Int → Bool) :=
  let d := destPixel m p.1 p.2
  if 0 ≤ d.1 ∧ 0 ≤ d.2 ∧ d.1 < sw ∧ d.2 < sh then
    (updColor sm.1 (d.2 * sw + d.1) (bg (p.2 * bw + p.1)),
     updBool sm.2 (d.2 * sw + d.1) true)
  else sm

/-- The forward-mapping pass of `perspector` (first double loop), returning
the sink raster and the transformed mask (calloc: initially all false). -/
def forward_pass (m : List ℚ) (sw sh bw bh : Int) (bg : Int → Color)
    (sink0 : Int → Color) : (Int → Color) × (Int → Bool) :=
  (scanList bw bh).foldl (forward_step m sw sh bw bg) (sink0, fun _ => false)

/-- `for (v = lo; v <= hi; v++)` as a list of values. -/
def intRange (lo hi : Int) : List Int :=
  (List.range (hi + 1 - lo).toNat).map (fun (k : Nat) => lo + (k : Int))

/-- `for (v = lo; v <= hi; v += hi - lo)`: no iteration when `hi < lo`, the
two border values when `lo < hi`, and an infinite loop (modelled as `none`)
when `lo = hi`, because the step is then zero. -/
def borderIter (lo hi : Int) : Option (List Int) :=
  if hi < lo then some []
  else if lo = hi then none
  else some [lo, hi]

/-- Channel accumulators (red, green, blue, alpha), exact naturals standing
for the C double buffers, which stay exact on these integer sums. -/
abbrev ChanSums := Nat × Nat × Nat × Nat

/-- Accumulate one sampled cell: count it and add its channels when marked. -/
def addCell (mask : Int → Bool) (sink : Int → Color) (w : Int)
    (acc : Nat × ChanSums) (c : Int × Int) : Nat × ChanSums :=
  let idx := c.2 * w + c.1
  if mask idx then
    (acc.1 + 1,
     (acc.2.1 + (sink idx).red, acc.2.2.1 + (sink idx).green,
      acc.2.2.2.1 + (sink idx).blue, acc.2.2.2.2 + (sink idx).alpha))
  else acc

/-- Lower window bound: `v - r`, clipped to 0 (C: `if (v_min < 0) v_min = 0`). -/
def winLo (v r : Int) : Int :=
  if v - r < 0 then 0 else v - r

/-- Upper window bound: `v + r`, clipped to `bound - 1`. -/
def winHi (bound v r : Int) : Int :=
  if v + r ≥ bound then bound - 1 else v + r

/-- One radius of the interpolation search: clip the square window to the sink
bounds and sample its border (left and right columns, then top and bottom
rows; corners are visited twice, exactly as in the C loops). `none` models the
infinite loop that the C border loops enter when their step `max - min` is 0. -/
def borderScan (mask : Int → Bool) (sink : Int → Color) (w h x y r : Int) :
    Option (Nat × ChanSums) :=
  let xmin := winLo x r
  let xmax := winHi w x r
  let ymin := winLo y r
  let ymax := winHi h y r
  match borderIter xmin xmax, borderIter ymin ymax with
  | some cols, some rows =>
      let cells1 := cols.flatMap (fun i => (intRange ymin ymax).map (fun j => (i, j)))
      let cells2 := rows.flatMap (fun j => (intRange xmin xmax).map (fun i => (i, j)))
      some ((cells1 ++ cells2).foldl (addCell mask sink w) (0, 0, 0, 0, 0))
  | _, _ => none

/-- The radius loop `for (radius = 1; !count; radius++)`, with explicit fuel.
For radii at least `w + h` the clipped window no longer changes, so a search
still empty after `searchFuel` radii never finds a marked pixel: fuel
exhaustion (`none`) models the C loop running forever. -/
def searchAux (mask : Int → Bool) (sink : Int → Color) (w h x y : Int) :
    Nat → Int → Option (Int × Nat × ChanSums)
  | 0, _ => none
  | Nat.succ fuel, r =>
    match borderScan mask sink w h x y r with
    | none => none
    | some (cnt, sums) =>
        if cnt = 0 then searchAux mask sink w h x y fuel (r + 1)
        else some (r, cnt, sums)

/-- Fuel that saturates the clipped window: past `w + h` the window is the
whole sink. -/
def searchFuel (w h : Int) : Nat := (w + h).toNat + 2

/-- The interpolation search for one hole, from radius 1. -/
def interp_search (mask : Int → Bool) (sink : Int → Color) (w h x y : Int) :
    Option (Int × Nat × ChanSums) :=
  searchAux mask sink w h x y (searchFuel w h) 1

/-- One iteration of the gap-filling pass: skip marked cells, otherwise run the
expanding search and write the truncated channel means into the cell. -/
def gap_step (mask : Int → Bool) (w h : Int) (sink : Int → Color)
    (c : Int × Int) : Option (Int → Color) :=
  let idx := c.2 * w + c.1
  if mask idx then some sink
  else
    match interp_search mask sink w h c.1 c.2 with
    | none => none
    | some (_, cnt, sums) =>
        some (updColor sink idx
          { red := sums.1 / cnt, green := sums.2.1 / cnt,
            blue := sums.2.2.1 / cnt, alpha := sums.2.2.2 / cnt })

/-- The gap-filling pass of `perspector` (second double loop, x outer, y
inner), threading the sink raster through each hole in scan order. -/
def gap_fill (mask : Int → Bool) (w h : Int) (sink : Int → Color) :
    Option (Int → Color) :=
  (scanList w h).foldlM (gap_step mask w h) sink

/-- Failure modes of `perspector`. `divisionByZero` marks the evaluation of
`COORD_MAX / sink_width` with `sink_width == 0`; `interpolationHangs` marks a
gap-filling search that never finds a marked pixel or enters a zero-step
border loop. Both are undefined behavior / nontermination in the C code. -/
inductive PError where
  | transformFailed
  | divisionByZero
  | sizeOverflow
  | interpolationHangs
deriving DecidableEq, Repr

/-- C function `perspector`. The transform matrix `m` stands for the output of
the GSL SVD (see `make_transform_matrix`); the stages are in source order:
classification (inside `make_transform_matrix`), the overflow precheck
`COORD_MAX / sink_width < sink_height` (evaluated before the mask is
allocated), the forward-mapping pass, then the gap-filling pass. -/
def perspector (m : List ℚ) (anchors : List Pixel) (sink0 : Int → Color)
    (sw sh : Int) (bg : Int → Color) (bw bh : Int) :
    Except PError (Int → Color) :=
  match projectable anchors with
  | none => .error .transformFailed
  | some _ =>
    if sw = 0 then .error .divisionByZero
    else if COORD_MAX.tdiv sw < sh then .error .sizeOverflow
    else
      let fm := forward_pass m sw sh bw bh bg sink0
      match gap_fill fm.2 sw sh fm.1 with
      | none => .error .interpolationHangs
      | some s => .ok s

/-- Strict lexicographic order on source pixels: the scan order of the
forward-mapping loops. -/
def lexLt (p q : Int × Int) : Prop :=
  p.1 < q.1 ∨ (p.1 = q.1 ∧ p.2 < q.2)

instance : DecidableRel lexLt := fun p q => by unfold lexLt; infer_instance

/-- The source pixels that the forward pass sends to destination cell
`(u, v)`, in scan order. -/
def hitList (m : List ℚ) (bw bh u v : Int) : List (Int × Int) :=
  (scanList bw bh).filter (fun p => decide (destPixel m p.1 p.2 = (u, v)))

/-- The color the gap-filling pass computes for a hole from a given raster:
the truncated channel means over the first non-empty border sample. -/
def interp_color (mask : Int → Bool) (sink : Int → Color) (w h : Int)
    (c : Int × Int) : Option Color :=
  match interp_search mask sink w h c.1 c.2 with
  | none => none
  | some (_, cnt, sums) =>
      some { red := sums.1 / cnt, green := sums.2.1 / cnt,
             blue := sums.2.2.1 / cnt, alpha := sums.2.2.2 / cnt }

/-- Stated from the spec's words, for comparison with the source's
`check_order`: the corner sequence (bl, br, tr, tl) is a rotation of the
angular order. -/
def rotation_pass (order : List Pixel) (r : Rect) : Prop :=
  ∃ k < 4, order.rotate k = [r.bl, r.br, r.tr, r.tl]

/-- The x-splitting candidate passes, in the spec's terms: its split medians
are strict and its corner sequence is a rotation of the angular order. -/
def x_candidate_rot (anchors : List Pixel) : Prop :=
  x_split_cond (psortX anchors)
    ∧ rotation_pass (angular_order anchors) (xsplit_assign (psortX anchors))

/-- The y-splitting candidate passes, in the spec's terms. -/
def y_candidate_rot (anchors : List Pixel) : Prop :=
  y_split_cond (psortY anchors)
    ∧ rotation_pass (angular_order anchors) (ysplit_assign (psortY anchors))

/-! Helper lemmas. -/

/-- `pos` never returns the bit-or value `UNDESIRED` (28): the enum values are
1, 2, 4, 8, 16. -/
theorem Position.val_ne_UNDESIRED (p : Position) : p.val ≠ UNDESIRED := by
  cases p <;> decide

/-- The collinearity rejection of `projectable` is dead code: comparing a
`pos` result with `==` to the bit-or `UNDESIRED` is always false. -/
theorem undesired_check_eq_false (anchors : List Pixel) :
    undesired_check anchors = false := by
  unfold undesired_check
  simp only [Bool.or_eq_false_iff, decide_eq_false_iff_not]
  exact ⟨⟨⟨⟨⟨Position.val_ne_UNDESIRED _, Position.val_ne_UNDESIRED _⟩,
    Position.val_ne_UNDESIRED _⟩, Position.val_ne_UNDESIRED _⟩,
    Position.val_ne_UNDESIRED _⟩, Position.val_ne_UNDESIRED _⟩

/-- Rounding is the identity on integers. -/
theorem roundHalfAway_intCast (k : Int) : roundHalfAway (k : ℚ) = k := by
  unfold roundHalfAway
  split_ifs with h
  · rw [add_comm, Int.floor_add_int]
    norm_num
  · rw [sub_eq_add_neg, add_comm, Int.ceil_add_int]
    norm_num

/-- A list of length 9 is a nine-element literal. -/
theorem list_length_nine {α : Type} (l : List α) (h : l.length = 9) :
    ∃ a b c d e f g h8 i, l = [a, b, c, d, e, f, g, h8, i] := by
  obtain ⟨a, l, rfl⟩ := List.exists_of_length_succ l h
  simp only [List.length_cons, Nat.succ_inj] at h
  obtain ⟨b, l, rfl⟩ := List.exists_of_length_succ l h
  simp only [List.length_cons, Nat.succ_inj] at h
  obtain ⟨c, l, rfl⟩ := List.exists_of_length_succ l h
  simp only [List.length_cons, Nat.succ_inj] at h
  obtain ⟨d, l, rfl⟩ := List.exists_of_length_succ l h
  simp only [List.length_cons, Nat.succ_inj] at h
  obtain ⟨e, l, rfl⟩ := List.exists_of_length_succ l h
  simp only [List.length_cons, Nat.succ_inj] at h
  obtain ⟨f, l, rfl⟩ := List.exists_of_length_succ l h
  simp only [List.length_cons, Nat.succ_inj] at h
  obtain ⟨g, l, rfl⟩ := List.exists_of_length_succ l h
  simp only [List.length_cons, Nat.succ_inj] at h
  obtain ⟨h8, l, rfl⟩ := List.exists_of_length_succ l h
  simp only [List.length_cons, Nat.succ_inj] at h
  obtain ⟨i, l, rfl⟩ := List.exists_of_length_succ l h
  simp only [List.length_cons, Nat.succ_inj] at h
  rw [List.length_eq_zero] at h
  subst h
  exact ⟨a, b, c, d, e, f, g, h8, i, rfl⟩

/-- A list of length 4 is a four-element literal. -/
theorem list_length_four {α : Type} (l : List α) (h : l.length = 4) :
    ∃ a b c d, l = [a, b, c, d] := by
  obtain ⟨a, l, rfl⟩ := List.exists_of_length_succ l h
  simp only [List.length_cons, Nat.succ_inj] at h
  obtain ⟨b, l, rfl⟩ := List.exists_of_length_succ l h
  simp only [List.length_cons, Nat.succ_inj] at h
  obtain ⟨c, l, rfl⟩ := List.exists_of_length_succ l h
  simp only [List.length_cons, Nat.succ_inj] at h
  obtain ⟨d, l, rfl⟩ := List.exists_of_length_succ l h
  simp only [List.length_cons, Nat.succ_inj] at h
  rw [List.length_eq_zero] at h
  subst h
  exact ⟨a, b, c, d, rfl⟩

/-! Claim C10: the overflow precheck divides by `sink_width` before any guard
rejects a zero width. -/

/-- C10: `perspector` is total only when `sink_width ≥ 1`. With the unit
square as anchors (classification succeeds, first conjunct) and
`sink_width = 0`, control reaches the precheck `COORD_MAX / sink_width` and
divides by zero (modelled by the distinguished `divisionByZero` outcome):
no earlier guard rejects the zero dimension. -/
theorem perspector_zero_width_divides_by_zero :
    projectable [⟨0, 0⟩, ⟨1, 0⟩, ⟨1, 1⟩, ⟨0, 1⟩]
        = some ⟨⟨0, 0⟩, ⟨1, 0⟩, ⟨1, 1⟩, ⟨0, 1⟩⟩
    ∧ perspector [1, 0, 0, 0, 1, 0, 0, 0, 1] [⟨0, 0⟩, ⟨1, 0⟩, ⟨1, 1⟩, ⟨0, 1⟩]
        (fun _ => ⟨0, 0, 0, 0⟩) 0 5 (fun _ => ⟨0, 0, 0, 0⟩) 1 1
        = .error .divisionByZero := by
  constructor
  · decide
  · rfl

/-! Claim C7: the size precheck fails before the mask allocation whenever
`sink_width * sink_height` overflows the coord arithmetic. -/

/-- C7: if `sink_width ≥ 1` and `sink_width * sink_height` exceeds
`COORD_MAX`, `perspector` fails before allocating the mask — either because
classification already failed, or through the `sizeOverflow` branch, both of
which precede the mask allocation and the forward pass, so nothing is written
to the destination raster. -/
theorem perspector_size_overflow (m : List ℚ) (anchors : List Pixel)
    (sink0 bg : Int → Color) (sw sh bw bh : Int)
    (hsw : 1 ≤ sw) (hover : COORD_MAX < sw * sh) :
    perspector m anchors sink0 sw sh bg bw bh = .error .transformFailed
      ∨ perspector m anchors sink0 sw sh bg bw bh = .error .sizeOverflow := by
  unfold perspector
  cases hp : projectable anchors with
  | none => exact Or.inl rfl
  | some r =>
    right
    have hsw0 : ¬ sw = 0 := by omega
    have hdiv : COORD_MAX.tdiv sw < sh := by
      have h1 : COORD_MAX.tdiv sw = COORD_MAX / sw :=
        Int.tdiv_eq_ediv (by decide) (by omega)
      rw [h1, Int.ediv_lt_iff_lt_mul (by omega)]
      calc COORD_MAX < sw * sh := hover
        _ = sh * sw := mul_comm _ _
    rw [if_neg hsw0, if_pos hdiv]

/-- Witness for C7 at a concrete input: 65536 × 65536 destination cells
overflow int32, and `perspector` rejects with `sizeOverflow`. -/
theorem perspector_size_overflow_witness :
    (1 : Int) ≤ 65536 ∧ COORD_MAX < 65536 * 65536
    ∧ (perspector [1, 0, 0, 0, 1, 0, 0, 0, 1] [⟨0, 0⟩, ⟨1, 0⟩, ⟨1, 1⟩, ⟨0, 1⟩]
          (fun _ => ⟨0, 0, 0, 0⟩) 65536 65536 (fun _ => ⟨0, 0, 0, 0⟩) 1 1
          = .error .transformFailed
       ∨ perspector [1, 0, 0, 0, 1, 0, 0, 0, 1] [⟨0, 0⟩, ⟨1, 0⟩, ⟨1, 1⟩, ⟨0, 1⟩]
          (fun _ => ⟨0, 0, 0, 0⟩) 65536 65536 (fun _ => ⟨0, 0, 0, 0⟩) 1 1
          = .error .sizeOverflow) :=
  ⟨by decide, by decide,
   perspector_size_overflow _ _ _ _ _ _ _ _ (by decide) (by decide)⟩

/-! Claim C5: equal middle x-values or equal middle y-values make
classification fail. Refuted as stated: when the two low-x anchors share
their y-value, the direct case can accept a configuration whose two middle
y-values are equal. The claim holds once restricted to configurations that
the direct case does not accept (the spec's own "else"). -/

/-- C5 counterexample: the four distinct pixels (0,5), (1,5), (2,3), (3,8)
have equal middle y-values after sorting by y, yet classification succeeds
(the direct case accepts them), contradicting the claim that it must fail. -/
theorem projectable_mid_y_equal_accepted :
    [Pixel.mk 0 5, ⟨1, 5⟩, ⟨2, 3⟩, ⟨3, 8⟩].Nodup
    ∧ ((psortY [⟨0, 5⟩, ⟨1, 5⟩, ⟨2, 3⟩, ⟨3, 8⟩]).getD 1 pd).y
        = ((psortY [⟨0, 5⟩, ⟨1, 5⟩, ⟨2, 3⟩, ⟨3, 8⟩]).getD 2 pd).y
    ∧ projectable [⟨0, 5⟩, ⟨1, 5⟩, ⟨2, 3⟩, ⟨3, 8⟩]
        = some ⟨⟨1, 5⟩, ⟨2, 3⟩, ⟨3, 8⟩, ⟨0, 5⟩⟩ := by
  decide

/-- C5 amended: if the direct case does not accept the anchors and, after
sorting, the two middle x-values are equal or the two middle y-values are
equal, classification fails and no Rect is produced. -/
theorem projectable_degenerate_split (anchors : List Pixel)
    (hdir : ¬ direct_cond (psortX anchors))
    (hdeg : degenerate_cond anchors) :
    projectable anchors = none := by
  unfold projectable
  rw [if_neg hdir, if_pos hdeg]

/-- Witness for the amended C5 at a concrete input: the losange
(-1,0), (0,1), (1,0), (0,-1) has equal middle x-values and is rejected. -/
theorem projectable_degenerate_split_witness :
    ¬ direct_cond (psortX [⟨-1, 0⟩, ⟨0, 1⟩, ⟨1, 0⟩, ⟨0, -1⟩])
    ∧ degenerate_cond [⟨-1, 0⟩, ⟨0, 1⟩, ⟨1, 0⟩, ⟨0, -1⟩]
    ∧ projectable [⟨-1, 0⟩, ⟨0, 1⟩, ⟨1, 0⟩, ⟨0, -1⟩] = none :=
  ⟨by decide, by decide,
   projectable_degenerate_split _ (by decide) (by decide)⟩

/-! Claim C4: in the diagonal case a pair of anchors whose barycentre-relative
direction vectors are EQUAL, OPPOSED or UNDEF must make classification fail.
The source's rejection test compares each `pos` result with `==` against the
bit-or `UNDESIRED` (28), a value `pos` never returns
(`undesired_check_eq_false`), so the test is dead code, contradicting the
comment above it in the source and the spec. -/

/-- C4 failing input: the anchors (0,0), (2,3), (5,5), (1,0) reach the
diagonal case, the pair ((0,0), (5,5)) is OPPOSED through the barycentre
(2,2), yet classification succeeds, returning the y-splitting candidate. -/
theorem projectable_accepts_opposed_pair :
    (¬ direct_cond (psortX [⟨0, 0⟩, ⟨2, 3⟩, ⟨5, 5⟩, ⟨1, 0⟩]))
    ∧ (¬ degenerate_cond [⟨0, 0⟩, ⟨2, 3⟩, ⟨5, 5⟩, ⟨1, 0⟩])
    ∧ pos (toPoint (barycentre [⟨0, 0⟩, ⟨2, 3⟩, ⟨5, 5⟩, ⟨1, 0⟩]) ⟨0, 0⟩)
          (toPoint (barycentre [⟨0, 0⟩, ⟨2, 3⟩, ⟨5, 5⟩, ⟨1, 0⟩]) ⟨5, 5⟩)
        = Position.OPPOSED
    ∧ projectable [⟨0, 0⟩, ⟨2, 3⟩, ⟨5, 5⟩, ⟨1, 0⟩]
        = some ⟨⟨0, 0⟩, ⟨1, 0⟩, ⟨5, 5⟩, ⟨2, 3⟩⟩ := by
  with_unfolding_all decide

/-! Claim C1: the matrix produced by `make_transform_matrix` sends the
classified corners to the destination rectangle corners. Refuted as stated:
the classifier accepts sets with three collinear anchors, for which every
null vector of the system annihilates the homogeneous coordinate of some
corner; the claim holds under the additional hypothesis that the third
homogeneous component is nonzero at each corner. -/

/-- C1 counterexample: the classifier accepts (0,0), (2,0), (2,2), (1,1)
(three of which are collinear) with tr = (2,2); the concrete nonzero null
vector [2,-2,0,0,0,0,1,-1,0] of the system for W = H = 2 is a possible
output of `make_transform_matrix`, yet it does not map tr to (W, H): the
third homogeneous component vanishes there. -/
theorem make_transform_matrix_counterexample :
    make_transform_matrix [⟨0, 0⟩, ⟨2, 0⟩, ⟨2, 2⟩, ⟨1, 1⟩] 2 2
        [2, -2, 0, 0, 0, 0, 1, -1, 0]
    ∧ projectable [⟨0, 0⟩, ⟨2, 0⟩, ⟨2, 2⟩, ⟨1, 1⟩]
        = some ⟨⟨0, 0⟩, ⟨2, 0⟩, ⟨2, 2⟩, ⟨1, 1⟩⟩
    ∧ destPixel [2, -2, 0, 0, 0, 0, 1, -1, 0] 2 2 ≠ (2, 2) := by
  refine ⟨⟨⟨⟨0, 0⟩, ⟨2, 0⟩, ⟨2, 2⟩, ⟨1, 1⟩⟩, ?_, ?_, ?_, ?_⟩, ?_, ?_⟩
  · decide
  · with_unfolding_all decide
  · decide
  · with_unfolding_all decide
  · decide
  · with_unfolding_all decide

/-- C1 amended: for every anchor set of 4 distinct pixels accepted by the
classifier with corners `r`, every destination size W ≥ 1, H ≥ 1 and every
matrix `m` that `make_transform_matrix` can produce, provided the third
homogeneous component of `m` applied to each corner is nonzero, `m` maps
bl, br, tr, tl (homogeneous product, division by the third component,
rounding) exactly to (0,0), (W,0), (W,H), (0,H). -/
theorem make_transform_maps_corners
    (anchors : List Pixel) (hnd : anchors.Nodup) (r : Rect) (w h : Int)
    (hw : 1 ≤ w) (hh : 1 ≤ h) (m : List ℚ)
    (hproj : projectable anchors = some r)
    (hm : make_transform_matrix anchors w h m)
    (hbl : mAt m 6 * r.bl.x + mAt m 7 * r.bl.y + mAt m 8 ≠ 0)
    (hbr : mAt m 6 * r.br.x + mAt m 7 * r.br.y + mAt m 8 ≠ 0)
    (htr : mAt m 6 * r.tr.x + mAt m 7 * r.tr.y + mAt m 8 ≠ 0)
    (htl : mAt m 6 * r.tl.x + mAt m 7 * r.tl.y + mAt m 8 ≠ 0) :
    destPixel m r.bl.x r.bl.y = (0, 0)
    ∧ destPixel m r.br.x r.br.y = (w, 0)
    ∧ destPixel m r.tr.x r.tr.y = (w, h)
    ∧ destPixel m r.tl.x r.tl.y = (0, h) := by
  obtain ⟨r', hproj', hsolve, hlen, -⟩ := hm
  have hrr : r = r' := by
    have h2 : some r = some r' := hproj.symm.trans hproj'
    injection h2
  subst hrr
  obtain ⟨m0, m1, m2, m3, m4, m5, m6, m7, m8, rfl⟩ := list_length_nine m hlen
  simp only [solves_system, system_equation, List.forall_mem_cons,
    List.forall_mem_nil, and_true, rowDot] at hsolve
  obtain ⟨h0, h1, h2, h3, h4, h5, h6, h7, -⟩ := hsolve
  have hbl2 : m6 * (r.bl.x : ℚ) + m7 * r.bl.y + m8 ≠ 0 := hbl
  have hbr2 : m6 * (r.br.x : ℚ) + m7 * r.br.y + m8 ≠ 0 := hbr
  have htr2 : m6 * (r.tr.x : ℚ) + m7 * r.tr.y + m8 ≠ 0 := htr
  have htl2 : m6 * (r.tl.x : ℚ) + m7 * r.tl.y + m8 ≠ 0 := htl
  have e0 : roundHalfAway (0 : ℚ) = 0 := by
    have := roundHalfAway_intCast 0
    push_cast at this
    exact this
  have ew : roundHalfAway ((w : Int) : ℚ) = w := roundHalfAway_intCast w
  have eh : roundHalfAway ((h : Int) : ℚ) = h := roundHalfAway_intCast h
  refine ⟨?_, ?_, ?_, ?_⟩
  · show (roundHalfAway ((m0 * (r.bl.x : ℚ) + m1 * r.bl.y + m2)
          / (m6 * (r.bl.x : ℚ) + m7 * r.bl.y + m8)),
        roundHalfAway ((m3 * (r.bl.x : ℚ) + m4 * r.bl.y + m5)
          / (m6 * (r.bl.x : ℚ) + m7 * r.bl.y + m8))) = ((0 : Int), (0 : Int))
    have nx : m0 * (r.bl.x : ℚ) + m1 * r.bl.y + m2 = 0 := by linear_combination h0
    have ny : m3 * (r.bl.x : ℚ) + m4 * r.bl.y + m5 = 0 := by linear_combination h1
    rw [nx, ny, zero_div, e0]
  · show (roundHalfAway ((m0 * (r.br.x : ℚ) + m1 * r.br.y + m2)
          / (m6 * (r.br.x : ℚ) + m7 * r.br.y + m8)),
        roundHalfAway ((m3 * (r.br.x : ℚ) + m4 * r.br.y + m5)
          / (m6 * (r.br.x : ℚ) + m7 * r.br.y + m8))) = (w, (0 : Int))
    have nx : m0 * (r.br.x : ℚ) + m1 * r.br.y + m2
        = (w : ℚ) * (m6 * (r.br.x : ℚ) + m7 * r.br.y + m8) := by linear_combination h2
    have ny : m3 * (r.br.x : ℚ) + m4 * r.br.y + m5 = 0 := by linear_combination h3
    rw [nx, ny, zero_div, e0, mul_div_assoc, div_self hbr2, mul_one, ew]
  · show (roundHalfAway ((m0 * (r.tr.x : ℚ) + m1 * r.tr.y + m2)
          / (m6 * (r.tr.x : ℚ) + m7 * r.tr.y + m8)),
        roundHalfAway ((m3 * (r.tr.x : ℚ) + m4 * r.tr.y + m5)
          / (m6 * (r.tr.x : ℚ) + m7 * r.tr.y + m8))) = (w, h)
    have nx : m0 * (r.tr.x : ℚ) + m1 * r.tr.y + m2
        = (w : ℚ) * (m6 * (r.tr.x : ℚ) + m7 * r.tr.y + m8) := by linear_combination h4
    have ny : m3 * (r.tr.x : ℚ) + m4 * r.tr.y + m5
        = (h : ℚ) * (m6 * (r.tr.x : ℚ) + m7 * r.tr.y + m8) := by linear_combination h5
    rw [nx, ny, mul_div_assoc, div_self htr2, mul_one, ew, mul_div_assoc,
      div_self htr2, mul_one, eh]
  · show (roundHalfAway ((m0 * (r.tl.x : ℚ) + m1 * r.tl.y + m2)
          / (m6 * (r.tl.x : ℚ) + m7 * r.tl.y + m8)),
        roundHalfAway ((m3 * (r.tl.x : ℚ) + m4 * r.tl.y + m5)
          / (m6 * (r.tl.x : ℚ) + m7 * r.tl.y + m8))) = ((0 : Int), h)
    have nx : m0 * (r.tl.x : ℚ) + m1 * r.tl.y + m2 = 0 := by linear_combination h6
    have ny : m3 * (r.tl.x : ℚ) + m4 * r.tl.y + m5
        = (h : ℚ) * (m6 * (r.tl.x : ℚ) + m7 * r.tl.y + m8) := by linear_combination h7
    rw [nx, ny, zero_div, e0, mul_div_assoc, div_self htl2, mul_one, eh]

set_option maxHeartbeats 1600000 in
/-- Witness for the amended C1 at a concrete input: the unit square with
destination 3 × 2 and the exact null vector [3,0,0,0,2,0,0,0,1] maps the
corners to (0,0), (3,0), (3,2), (0,2). -/
theorem make_transform_maps_corners_witness :
    projectable [⟨0, 0⟩, ⟨1, 0⟩, ⟨1, 1⟩, ⟨0, 1⟩]
        = some ⟨⟨0, 0⟩, ⟨1, 0⟩, ⟨1, 1⟩, ⟨0, 1⟩⟩
    ∧ make_transform_matrix [⟨0, 0⟩, ⟨1, 0⟩, ⟨1, 1⟩, ⟨0, 1⟩] 3 2
        [3, 0, 0, 0, 2, 0, 0, 0, 1]
    ∧ (destPixel [3, 0, 0, 0, 2, 0, 0, 0, 1] 0 0 = (0, 0)
       ∧ destPixel [3, 0, 0, 0, 2, 0, 0, 0, 1] 1 0 = (3, 0)
       ∧ destPixel [3, 0, 0, 0, 2, 0, 0, 0, 1] 1 1 = (3, 2)
       ∧ destPixel [3, 0, 0, 0, 2, 0, 0, 0, 1] 0 1 = (0, 2)) := by
  have hm : make_transform_matrix [⟨0, 0⟩, ⟨1, 0⟩, ⟨1, 1⟩, ⟨0, 1⟩] 3 2
      [3, 0, 0, 0, 2, 0, 0, 0, 1] := by
    refine ⟨⟨⟨0, 0⟩, ⟨1, 0⟩, ⟨1, 1⟩, ⟨0, 1⟩⟩, by decide,
      by with_unfolding_all decide, by decide, by with_unfolding_all decide⟩
  refine ⟨by decide, hm, ?_⟩
  exact make_transform_maps_corners [⟨0, 0⟩, ⟨1, 0⟩, ⟨1, 1⟩, ⟨0, 1⟩] (by decide)
    ⟨⟨0, 0⟩, ⟨1, 0⟩, ⟨1, 1⟩, ⟨0, 1⟩⟩ 3 2 (by decide) (by decide)
    [3, 0, 0, 0, 2, 0, 0, 0, 1] (by decide) hm
    (by with_unfolding_all decide) (by with_unfolding_all decide)
    (by with_unfolding_all decide) (by with_unfolding_all decide)

/-! Claim C2: the direct case of the classifier. Refuted as stated: the
source's guard requires the y-ranges of the x-low and x-high pairs to
overlap in both directions, not to be strictly separated; a strictly
separated configuration falls through to the diagonal case, where it can be
rejected outright. -/

/-- C2 counterexample: the four distinct pixels (0,0), (1,2), (2,5), (4,6)
satisfy the claim's premises — middle x-values differ, the y-ranges of the
x-low pair {(0,0),(1,2)} and the x-high pair {(2,5),(4,6)} are strictly
separated, and the middle y-values differ — yet classification fails
(both diagonal-case candidates are rejected against the angular order). -/
theorem projectable_separated_ranges_rejected :
    [Pixel.mk 0 0, ⟨1, 2⟩, ⟨2, 5⟩, ⟨4, 6⟩].Nodup
    ∧ ((psortX [⟨0, 0⟩, ⟨1, 2⟩, ⟨2, 5⟩, ⟨4, 6⟩]).getD 1 pd).x
        ≠ ((psortX [⟨0, 0⟩, ⟨1, 2⟩, ⟨2, 5⟩, ⟨4, 6⟩]).getD 2 pd).x
    ∧ (∀ p ∈ [((psortX [⟨0, 0⟩, ⟨1, 2⟩, ⟨2, 5⟩, ⟨4, 6⟩]).getD 0 pd),
              ((psortX [⟨0, 0⟩, ⟨1, 2⟩, ⟨2, 5⟩, ⟨4, 6⟩]).getD 1 pd)],
       ∀ q ∈ [((psortX [⟨0, 0⟩, ⟨1, 2⟩, ⟨2, 5⟩, ⟨4, 6⟩]).getD 2 pd),
              ((psortX [⟨0, 0⟩, ⟨1, 2⟩, ⟨2, 5⟩, ⟨4, 6⟩]).getD 3 pd)],
       p.y < q.y)
    ∧ ((psortY [⟨0, 0⟩, ⟨1, 2⟩, ⟨2, 5⟩, ⟨4, 6⟩]).getD 1 pd).y
        ≠ ((psortY [⟨0, 0⟩, ⟨1, 2⟩, ⟨2, 5⟩, ⟨4, 6⟩]).getD 2 pd).y
    ∧ projectable [⟨0, 0⟩, ⟨1, 2⟩, ⟨2, 5⟩, ⟨4, 6⟩] = none := by
  refine ⟨by decide, by decide, by decide, by decide, ?_⟩
  with_unfolding_all decide

/-- A three-element rotation used to normalise permutations of y-multisets. -/
theorem perm_to_back {α : Type} (x m1 m2 : α) :
    ([x, m1, m2] : List α).Perm [m1, m2, x] :=
  (List.Perm.swap m1 x [m2]).trans (List.Perm.cons m1 (List.Perm.swap m2 x []))

/-- A sorted integer list that is a permutation of `[p, m, m, q]` with
`p < m < q` is that list, so its two middle entries are both `m`. -/
theorem sorted_four_mid (l : List Int) (hs : l.Sorted (· ≤ ·)) (p q m : Int)
    (hperm : l.Perm [p, m, m, q]) (h1 : p < m) (h2 : m < q) :
    l = [p, m, m, q] := by
  refine List.eq_of_perm_of_sorted hperm hs ?_
  simp only [List.sorted_cons, List.mem_cons, List.mem_singleton,
    List.sorted_nil, List.not_mem_nil]
  refine ⟨?_, ?_, ?_, by simp⟩ <;> intro b hb <;> simp at hb <;> omega

/-- In the overlap case with distinct middle y-values, the high pair's
y-values differ and the low pair's y-values differ, so the direct case of
`projectable` accepts the configuration. -/
theorem direct_cond_of_overlap (anchors : List Pixel) (h4 : anchors.length = 4)
    (hx : ((psortX anchors).getD 1 pd).x ≠ ((psortX anchors).getD 2 pd).x)
    (hA : ((psortX anchors).getD 0 pd).y < ((psortX anchors).getD 2 pd).y
        ∨ ((psortX anchors).getD 0 pd).y < ((psortX anchors).getD 3 pd).y
        ∨ ((psortX anchors).getD 1 pd).y < ((psortX anchors).getD 2 pd).y
        ∨ ((psortX anchors).getD 1 pd).y < ((psortX anchors).getD 3 pd).y)
    (hB : ((psortX anchors).getD 0 pd).y > ((psortX anchors).getD 2 pd).y
        ∨ ((psortX anchors).getD 0 pd).y > ((psortX anchors).getD 3 pd).y
        ∨ ((psortX anchors).getD 1 pd).y > ((psortX anchors).getD 2 pd).y
        ∨ ((psortX anchors).getD 1 pd).y > ((psortX anchors).getD 3 pd).y)
    (hmidy : ((psortY anchors).getD 1 pd).y ≠ ((psortY anchors).getD 2 pd).y) :
    direct_cond (psortX anchors)
    ∧ ((psortX anchors).getD 0 pd).y ≠ ((psortX anchors).getD 1 pd).y := by
  have hxlen : (psortX anchors).length = 4 :=
    (List.perm_insertionSort xLe anchors).length_eq.trans h4
  have hylen : (psortY anchors).length = 4 :=
    (List.perm_insertionSort yLe anchors).length_eq.trans h4
  obtain ⟨a0, a1, a2, a3, hxeq⟩ := list_length_four (psortX anchors) hxlen
  obtain ⟨b0, b1, b2, b3, hyeq⟩ := list_length_four (psortY anchors) hylen
  have hx' : a1.x ≠ a2.x := by rw [hxeq] at hx; exact hx
  have hA' : a0.y < a2.y ∨ a0.y < a3.y ∨ a1.y < a2.y ∨ a1.y < a3.y := by
    rw [hxeq] at hA; exact hA
  have hB' : a0.y > a2.y ∨ a0.y > a3.y ∨ a1.y > a2.y ∨ a1.y > a3.y := by
    rw [hxeq] at hB; exact hB
  have hmidy' : b1.y ≠ b2.y := by rw [hyeq] at hmidy; exact hmidy
  have hysort : ((psortY anchors).map (fun p => p.y)).Sorted (· ≤ ·) := by
    have h1 : List.Sorted yLe (psortY anchors) := List.sorted_insertionSort yLe anchors
    exact h1.map _ (fun a b hab => hab)
  have hpermyx : ((psortY anchors).map (fun p => p.y)).Perm
      ((psortX anchors).map (fun p => p.y)) :=
    ((List.perm_insertionSort yLe anchors).map _).trans
      ((List.perm_insertionSort xLe anchors).map _).symm
  have hymap : (psortY anchors).map (fun p => p.y) = [b0.y, b1.y, b2.y, b3.y] := by
    rw [hyeq]; rfl
  have hxmap : (psortX anchors).map (fun p => p.y) = [a0.y, a1.y, a2.y, a3.y] := by
    rw [hxeq]; rfl
  rw [hymap, hxmap] at hpermyx
  rw [hymap] at hysort
  have hC : a2.y ≠ a3.y := by
    intro hC
    rw [hC] at hA' hB'
    have hlow : (a0.y < a3.y ∧ a3.y < a1.y) ∨ (a1.y < a3.y ∧ a3.y < a0.y) := by omega
    rcases hlow with ⟨hp, hq⟩ | ⟨hp, hq⟩
    · have hp2 : ([b0.y, b1.y, b2.y, b3.y] : List Int).Perm [a0.y, a3.y, a3.y, a1.y] := by
        refine hpermyx.trans ?_
        rw [hC]
        exact List.Perm.cons a0.y (perm_to_back a1.y a3.y a3.y)
      have := sorted_four_mid _ hysort _ _ _ hp2 hp hq
      simp at this
      exact hmidy' (this.2.1.trans this.2.2.1.symm)
    · have hp2 : ([b0.y, b1.y, b2.y, b3.y] : List Int).Perm [a1.y, a3.y, a3.y, a0.y] := by
        refine hpermyx.trans ?_
        rw [hC]
        exact (List.Perm.swap a1.y a0.y [a3.y, a3.y]).trans
          (List.Perm.cons a1.y (perm_to_back a0.y a3.y a3.y))
      have := sorted_four_mid _ hysort _ _ _ hp2 hp hq
      simp at this
      exact hmidy' (this.2.1.trans this.2.2.1.symm)
  have hD : a0.y ≠ a1.y := by
    intro hD
    rw [hD] at hA' hB'
    have hhigh : (a2.y < a1.y ∧ a1.y < a3.y) ∨ (a3.y < a1.y ∧ a1.y < a2.y) := by omega
    rcases hhigh with ⟨hp, hq⟩ | ⟨hp, hq⟩
    · have hp2 : ([b0.y, b1.y, b2.y, b3.y] : List Int).Perm [a2.y, a1.y, a1.y, a3.y] := by
        refine hpermyx.trans ?_
        rw [hD]
        exact (List.Perm.cons a1.y (List.Perm.swap a2.y a1.y [a3.y])).trans
          (List.Perm.swap a2.y a1.y [a1.y, a3.y])
      have := sorted_four_mid _ hysort _ _ _ hp2 hp hq
      simp at this
      exact hmidy' (this.2.1.trans this.2.2.1.symm)
    · have hp2 : ([b0.y, b1.y, b2.y, b3.y] : List Int).Perm [a3.y, a1.y, a1.y, a2.y] := by
        refine hpermyx.trans ?_
        rw [hD]
        exact ((List.Perm.cons a1.y (List.Perm.cons a1.y (List.Perm.swap a3.y a2.y []))).trans
          (List.Perm.cons a1.y (List.Perm.swap a3.y a1.y [a2.y]))).trans
          (List.Perm.swap a3.y a1.y [a1.y, a2.y])
      have := sorted_four_mid _ hysort _ _ _ hp2 hp hq
      simp at this
      exact hmidy' (this.2.1.trans this.2.2.1.symm)
  constructor
  · show ((psortX anchors).getD 1 pd).x ≠ ((psortX anchors).getD 2 pd).x ∧ _ ∧ _ ∧ _
    refine ⟨hx, hA, hB, ?_⟩
    rw [hxeq]
    exact hC
  · rw [hxeq]
    exact hD

/-- When the direct case accepts, `projectable` returns its assignment. -/
theorem projectable_of_direct_cond (anchors : List Pixel)
    (hc : direct_cond (psortX anchors)) :
    projectable anchors = some (xsplit_assign (psortX anchors)) := by
  unfold projectable
  rw [if_pos hc]

/-- C2 amended: for every set of 4 distinct pixels such that, after sorting
by x, the two middle x-values differ, the y-ranges of the x-low pair and the
x-high pair overlap in both directions (some low-pair y is below some
high-pair y and some low-pair y is above some high-pair y), and the two
middle y-values differ, classification succeeds and assigns: in the x-low
pair, the lower-y point as bottom-left and the other as top-left; in the
x-high pair, the lower-y point as bottom-right and the other as top-right. -/
theorem projectable_direct_case (anchors : List Pixel)
    (h4 : anchors.length = 4) (hnd : anchors.Nodup)
    (hx : ((psortX anchors).getD 1 pd).x ≠ ((psortX anchors).getD 2 pd).x)
    (hA : ((psortX anchors).getD 0 pd).y < ((psortX anchors).getD 2 pd).y
        ∨ ((psortX anchors).getD 0 pd).y < ((psortX anchors).getD 3 pd).y
        ∨ ((psortX anchors).getD 1 pd).y < ((psortX anchors).getD 2 pd).y
        ∨ ((psortX anchors).getD 1 pd).y < ((psortX anchors).getD 3 pd).y)
    (hB : ((psortX anchors).getD 0 pd).y > ((psortX anchors).getD 2 pd).y
        ∨ ((psortX anchors).getD 0 pd).y > ((psortX anchors).getD 3 pd).y
        ∨ ((psortX anchors).getD 1 pd).y > ((psortX anchors).getD 2 pd).y
        ∨ ((psortX anchors).getD 1 pd).y > ((psortX anchors).getD 3 pd).y)
    (hmidy : ((psortY anchors).getD 1 pd).y ≠ ((psortY anchors).getD 2 pd).y) :
    ∃ r, projectable anchors = some r
      ∧ (r.bl = (psortX anchors).getD 0 pd ∨ r.bl = (psortX anchors).getD 1 pd)
      ∧ (r.tl = (psortX anchors).getD 0 pd ∨ r.tl = (psortX anchors).getD 1 pd)
      ∧ r.bl.y < r.tl.y
      ∧ (r.br = (psortX anchors).getD 2 pd ∨ r.br = (psortX anchors).getD 3 pd)
      ∧ (r.tr = (psortX anchors).getD 2 pd ∨ r.tr = (psortX anchors).getD 3 pd)
      ∧ r.br.y < r.tr.y := by
  obtain ⟨hc, hD⟩ := direct_cond_of_overlap anchors h4 hx hA hB hmidy
  refine ⟨xsplit_assign (psortX anchors), projectable_of_direct_cond anchors hc, ?_⟩
  have hC : ((psortX anchors).getD 2 pd).y ≠ ((psortX anchors).getD 3 pd).y :=
    hc.2.2.2
  have ebl : (xsplit_assign (psortX anchors)).bl
      = (if ((psortX anchors).getD 0 pd).y < ((psortX anchors).getD 1 pd).y
         then (psortX anchors).getD 0 pd else (psortX anchors).getD 1 pd) := rfl
  have etl : (xsplit_assign (psortX anchors)).tl
      = (if ((psortX anchors).getD 0 pd).y < ((psortX anchors).getD 1 pd).y
         then (psortX anchors).getD 1 pd else (psortX anchors).getD 0 pd) := rfl
  have ebr : (xsplit_assign (psortX anchors)).br
      = (if ((psortX anchors).getD 2 pd).y < ((psortX anchors).getD 3 pd).y
         then (psortX anchors).getD 2 pd else (psortX anchors).getD 3 pd) := rfl
  have etr : (xsplit_assign (psortX anchors)).tr
      = (if ((psortX anchors).getD 2 pd).y < ((psortX anchors).getD 3 pd).y
         then (psortX anchors).getD 3 pd else (psortX anchors).getD 2 pd) := rfl
  rw [ebl, etl, ebr, etr]
  split_ifs with h01 h23 h23
  · exact ⟨Or.inl rfl, Or.inr rfl, h01, Or.inl rfl, Or.inr rfl, h23⟩
  · exact ⟨Or.inl rfl, Or.inr rfl, h01, Or.inr rfl, Or.inl rfl, by omega⟩
  · exact ⟨Or.inr rfl, Or.inl rfl, by omega, Or.inl rfl, Or.inr rfl, h23⟩
  · exact ⟨Or.inr rfl, Or.inl rfl, by omega, Or.inr rfl, Or.inl rfl, by omega⟩

/-- Witness for the amended C2 at a concrete input: the unit square has
overlapping pair y-ranges and distinct middle y-values, and classification
assigns its corners as claimed. -/
theorem projectable_direct_case_witness :
    ∃ r, projectable [Pixel.mk 0 0, ⟨1, 0⟩, ⟨1, 1⟩, ⟨0, 1⟩] = some r
      ∧ (r.bl = (psortX [Pixel.mk 0 0, ⟨1, 0⟩, ⟨1, 1⟩, ⟨0, 1⟩]).getD 0 pd
         ∨ r.bl = (psortX [Pixel.mk 0 0, ⟨1, 0⟩, ⟨1, 1⟩, ⟨0, 1⟩]).getD 1 pd)
      ∧ (r.tl = (psortX [Pixel.mk 0 0, ⟨1, 0⟩, ⟨1, 1⟩, ⟨0, 1⟩]).getD 0 pd
         ∨ r.tl = (psortX [Pixel.mk 0 0, ⟨1, 0⟩, ⟨1, 1⟩, ⟨0, 1⟩]).getD 1 pd)
      ∧ r.bl.y < r.tl.y
      ∧ (r.br = (psortX [Pixel.mk 0 0, ⟨1, 0⟩, ⟨1, 1⟩, ⟨0, 1⟩]).getD 2 pd
         ∨ r.br = (psortX [Pixel.mk 0 0, ⟨1, 0⟩, ⟨1, 1⟩, ⟨0, 1⟩]).getD 3 pd)
      ∧ (r.tr = (psortX [Pixel.mk 0 0, ⟨1, 0⟩, ⟨1, 1⟩, ⟨0, 1⟩]).getD 2 pd
         ∨ r.tr = (psortX [Pixel.mk 0 0, ⟨1, 0⟩, ⟨1, 1⟩, ⟨0, 1⟩]).getD 3 pd)
      ∧ r.br.y < r.tr.y :=
  projectable_direct_case [Pixel.mk 0 0, ⟨1, 0⟩, ⟨1, 1⟩, ⟨0, 1⟩]
    (by decide) (by decide) (by decide) (by decide) (by decide) (by decide)

/-! Claim C3: the diagonal case tests the two split candidates against the
angular order and succeeds exactly when precisely one passes. -/

/-- The loop of `check_order` agrees with the spec's rotation test: for a
4-element duplicate-free order containing `bl`, `check_order` holds iff
(bl, br, tr, tl) is a rotation of the order. -/
theorem check_order_iff_rotation (order : List Pixel) (hlen : order.length = 4)
    (hnd : order.Nodup) (bl br tr tl : Pixel) (hbl : bl ∈ order) :
    check_order order bl br tr tl = true
      ↔ ∃ k < 4, order.rotate k = [bl, br, tr, tl] := by
  obtain ⟨o0, o1, o2, o3, rfl⟩ := list_length_four order hlen
  simp only [List.nodup_cons, List.mem_cons, List.not_mem_nil, or_false,
    List.nodup_nil, and_true, not_or] at hnd
  obtain ⟨⟨h01, h02, h03⟩, ⟨h12, h13⟩, h23, -⟩ := hnd
  have hr0 : ([o0, o1, o2, o3] : List Pixel).rotate 0 = [o0, o1, o2, o3] := by
    simp [List.rotate]
  have hr1 : ([o0, o1, o2, o3] : List Pixel).rotate 1 = [o1, o2, o3, o0] := by
    simp [List.rotate]
  have hr2 : ([o0, o1, o2, o3] : List Pixel).rotate 2 = [o2, o3, o0, o1] := by
    simp [List.rotate]
  have hr3 : ([o0, o1, o2, o3] : List Pixel).rotate 3 = [o3, o0, o1, o2] := by
    simp [List.rotate]
  simp only [List.mem_cons, List.not_mem_nil, or_false] at hbl
  rcases hbl with rfl | rfl | rfl | rfl
  · have hidx : ([bl, o1, o2, o3].findIdx (fun p => p = bl)) = 0 := by
      simp [List.findIdx_cons]
    constructor
    · intro hco
      simp only [check_order, hidx] at hco
      norm_num [List.getD] at hco
      obtain ⟨⟨e1, e2⟩, e3⟩ := hco
      subst e1; subst e2; subst e3
      exact ⟨0, by omega, hr0⟩
    · rintro ⟨k, hk, hrot⟩
      interval_cases k
      · rw [hr0] at hrot
        simp only [List.cons.injEq, and_true] at hrot
        obtain ⟨-, e1, e2, e3⟩ := hrot
        subst e1; subst e2; subst e3
        simp only [check_order, hidx]
        norm_num [List.getD]
      · rw [hr1] at hrot
        simp only [List.cons.injEq] at hrot
        exact absurd hrot.1.symm h01
      · rw [hr2] at hrot
        simp only [List.cons.injEq] at hrot
        exact absurd hrot.1.symm h02
      · rw [hr3] at hrot
        simp only [List.cons.injEq] at hrot
        exact absurd hrot.1.symm h03
  · have hidx : ([o0, bl, o2, o3].findIdx (fun p => p = bl)) = 1 := by
      simp [List.findIdx_cons, h01]
    constructor
    · intro hco
      simp only [check_order, hidx] at hco
      norm_num [List.getD] at hco
      obtain ⟨⟨e1, e2⟩, e3⟩ := hco
      subst e1; subst e2; subst e3
      exact ⟨1, by omega, hr1⟩
    · rintro ⟨k, hk, hrot⟩
      interval_cases k
      · rw [hr0] at hrot
        simp only [List.cons.injEq] at hrot
        exact absurd hrot.1 h01
      · rw [hr1] at hrot
        simp only [List.cons.injEq, and_true] at hrot
        obtain ⟨-, e1, e2, e3⟩ := hrot
        subst e1; subst e2; subst e3
        simp only [check_order, hidx]
        norm_num [List.getD]
      · rw [hr2] at hrot
        simp only [List.cons.injEq] at hrot
        exact absurd hrot.1.symm h12
      · rw [hr3] at hrot
        simp only [List.cons.injEq] at hrot
        exact absurd hrot.1.symm h13
  · have hidx : ([o0, o1, bl, o3].findIdx (fun p => p = bl)) = 2 := by
      simp [List.findIdx_cons, h02, h12]
    constructor
    · intro hco
      simp only [check_order, hidx] at hco
      norm_num [List.getD] at hco
      obtain ⟨⟨e1, e2⟩, e3⟩ := hco
      subst e1; subst e2; subst e3
      exact ⟨2, by omega, hr2⟩
    · rintro ⟨k, hk, hrot⟩
      interval_cases k
      · rw [hr0] at hrot
        simp only [List.cons.injEq] at hrot
        exact absurd hrot.1 h02
      · rw [hr1] at hrot
        simp only [List.cons.injEq] at hrot
        exact absurd hrot.1 h12
      · rw [hr2] at hrot
        simp only [List.cons.injEq, and_true] at hrot
        obtain ⟨-, e1, e2, e3⟩ := hrot
        subst e1; subst e2; subst e3
        simp only [check_order, hidx]
        norm_num [List.getD]
      · rw [hr3] at hrot
        simp only [List.cons.injEq] at hrot
        exact absurd hrot.1.symm h23
  · have hidx : ([o0, o1, o2, bl].findIdx (fun p => p = bl)) = 3 := by
      simp [List.findIdx_cons, h03, h13, h23]
    constructor
    · intro hco
      simp only [check_order, hidx] at hco
      norm_num [List.getD] at hco
      obtain ⟨⟨e1, e2⟩, e3⟩ := hco
      subst e1; subst e2; subst e3
      exact ⟨3, by omega, hr3⟩
    · rintro ⟨k, hk, hrot⟩
      interval_cases k
      · rw [hr0] at hrot
        simp only [List.cons.injEq] at hrot
        exact absurd hrot.1 h03
      · rw [hr1] at hrot
        simp only [List.cons.injEq] at hrot
        exact absurd hrot.1 h13
      · rw [hr2] at hrot
        simp only [List.cons.injEq] at hrot
        exact absurd hrot.1 h23
      · rw [hr3] at hrot
        simp only [List.cons.injEq, and_true] at hrot
        obtain ⟨-, e1, e2, e3⟩ := hrot
        subst e1; subst e2; subst e3
        simp only [check_order, hidx]
        norm_num [List.getD]

/-- The bottom-left corner chosen by the x-split is one of the anchors. -/
theorem xsplit_assign_bl_mem (xs : List Pixel) (h : xs.length = 4) :
    (xsplit_assign xs).bl ∈ xs := by
  obtain ⟨a, b, c, d, rfl⟩ := list_length_four xs h
  by_cases hab : a.y < b.y <;> simp [xsplit_assign, hab, List.getD]

/-- The bottom-left corner chosen by the y-split is one of the anchors. -/
theorem ysplit_assign_bl_mem (ys : List Pixel) (h : ys.length = 4) :
    (ysplit_assign ys).bl ∈ ys := by
  obtain ⟨a, b, c, d, rfl⟩ := list_length_four ys h
  by_cases hab : a.x < b.x <;> simp [ysplit_assign, hab, List.getD]

/-- The `x_ok` flag of the source equals the spec's candidate test. -/
theorem x_candidate_ok_iff_rot (anchors : List Pixel)
    (h4 : anchors.length = 4) (hnd : anchors.Nodup) :
    x_candidate_ok anchors ↔ x_candidate_rot anchors := by
  have hol : (angular_order anchors).length = 4 :=
    (List.perm_insertionSort _ anchors).length_eq.trans h4
  have hond : (angular_order anchors).Nodup :=
    ((List.perm_insertionSort _ anchors).nodup_iff).mpr hnd
  have hxl : (psortX anchors).length = 4 :=
    (List.perm_insertionSort xLe anchors).length_eq.trans h4
  have hmem : (xsplit_assign (psortX anchors)).bl ∈ angular_order anchors := by
    have h1 := xsplit_assign_bl_mem (psortX anchors) hxl
    have h2 : (xsplit_assign (psortX anchors)).bl ∈ anchors :=
      (List.perm_insertionSort xLe anchors).mem_iff.mp h1
    exact (List.perm_insertionSort _ anchors).mem_iff.mpr h2
  unfold x_candidate_ok x_candidate_rot rotation_pass
  exact and_congr_right fun _ =>
    check_order_iff_rotation (angular_order anchors) hol hond _ _ _ _ hmem

/-- The `y_ok` flag of the source equals the spec's candidate test. -/
theorem y_candidate_ok_iff_rot (anchors : List Pixel)
    (h4 : anchors.length = 4) (hnd : anchors.Nodup) :
    y_candidate_ok anchors ↔ y_candidate_rot anchors := by
  have hol : (angular_order anchors).length = 4 :=
    (List.perm_insertionSort _ anchors).length_eq.trans h4
  have hond : (angular_order anchors).Nodup :=
    ((List.perm_insertionSort _ anchors).nodup_iff).mpr hnd
  have hyl : (psortY anchors).length = 4 :=
    (List.perm_insertionSort yLe anchors).length_eq.trans h4
  have hmem : (ysplit_assign (psortY anchors)).bl ∈ angular_order anchors := by
    have h1 := ysplit_assign_bl_mem (psortY anchors) hyl
    have h2 : (ysplit_assign (psortY anchors)).bl ∈ anchors :=
      (List.perm_insertionSort yLe anchors).mem_iff.mp h1
    exact (List.perm_insertionSort _ anchors).mem_iff.mpr h2
  unfold y_candidate_ok y_candidate_rot rotation_pass
  exact and_congr_right fun _ =>
    check_order_iff_rotation (angular_order anchors) hol hond _ _ _ _ hmem

/-- C3: for every 4-anchor configuration reaching the diagonal case, the
classifier derives the x-first and y-first candidates (each valid only when
its split medians are strict), tests each corner sequence for being a
rotation of the angular order around the centroid, succeeds returning the
passing candidate exactly when precisely one passes, and fails when zero or
two candidates pass. -/
theorem projectable_diagonal_case (anchors : List Pixel)
    (h4 : anchors.length = 4) (hnd : anchors.Nodup)
    (hdir : ¬ direct_cond (psortX anchors))
    (hdeg : ¬ degenerate_cond anchors) :
    (y_candidate_rot anchors ∧ ¬ x_candidate_rot anchors →
        projectable anchors = some (ysplit_assign (psortY anchors)))
    ∧ (x_candidate_rot anchors ∧ ¬ y_candidate_rot anchors →
        projectable anchors = some (xsplit_assign (psortX anchors)))
    ∧ ((x_candidate_rot anchors ↔ y_candidate_rot anchors) →
        projectable anchors = none)
    ∧ ((∃ r, projectable anchors = some r) ↔
        ¬ (x_candidate_rot anchors ↔ y_candidate_rot anchors)) := by
  have hx := x_candidate_ok_iff_rot anchors h4 hnd
  have hy := y_candidate_ok_iff_rot anchors h4 hnd
  have hund : ¬ (undesired_check anchors = true) := by
    rw [undesired_check_eq_false anchors]
    exact Bool.false_ne_true
  have hproj : projectable anchors =
      (if y_candidate_ok anchors ∧ ¬ x_candidate_ok anchors
       then some (ysplit_assign (psortY anchors))
       else if x_candidate_ok anchors ∧ ¬ y_candidate_ok anchors
       then some (xsplit_assign (psortX anchors))
       else none) := by
    unfold projectable
    rw [if_neg hdir, if_neg hdeg, if_neg hund]
  refine ⟨?_, ?_, ?_, ?_⟩
  · rintro ⟨h1, h2⟩
    rw [hproj, if_pos ⟨hy.mpr h1, fun hc => h2 (hx.mp hc)⟩]
  · rintro ⟨h1, h2⟩
    rw [hproj, if_neg (fun hc => h2 (hy.mp hc.1)), if_pos ⟨hx.mpr h1, fun hc => h2 (hy.mp hc)⟩]
  · intro hiff
    by_cases hxr : x_candidate_rot anchors
    · have hyr := hiff.mp hxr
      rw [hproj, if_neg (fun hc => hc.2 (hx.mpr hxr)),
        if_neg (fun hc => hc.2 (hy.mpr hyr))]
    · have hyr := fun hr => hxr (hiff.mpr hr)
      rw [hproj, if_neg (fun hc => hyr (hy.mp hc.1)),
        if_neg (fun hc => hxr (hx.mp hc.1))]
  · constructor
    · rintro ⟨r, hr⟩ hiff
      by_cases hxr : x_candidate_rot anchors
      · have hyr := hiff.mp hxr
        rw [hproj, if_neg (fun hc => hc.2 (hx.mpr hxr)),
          if_neg (fun hc => hc.2 (hy.mpr hyr))] at hr
        exact Option.noConfusion hr
      · have hyr := fun h => hxr (hiff.mpr h)
        rw [hproj, if_neg (fun hc => hyr (hy.mp hc.1)),
          if_neg (fun hc => hxr (hx.mp hc.1))] at hr
        exact Option.noConfusion hr
    · intro hniff
      by_cases hxr : x_candidate_rot anchors
      · have hyr : ¬ y_candidate_rot anchors := fun hyr => hniff ⟨fun _ => hyr, fun _ => hxr⟩
        refine ⟨xsplit_assign (psortX anchors), ?_⟩
        rw [hproj, if_neg (fun hc => hyr (hy.mp hc.1)),
          if_pos ⟨hx.mpr hxr, fun hc => hyr (hy.mp hc)⟩]
      · have hyr : y_candidate_rot anchors := by
          by_contra hyr
          exact hniff ⟨fun hc => absurd hc hxr, fun hc => absurd hc hyr⟩
        refine ⟨ysplit_assign (psortY anchors), ?_⟩
        rw [hproj, if_pos ⟨hy.mpr hyr, fun hc => hxr (hx.mp hc)⟩]

/-- Witness for C3 at a concrete input: the anchors (0,0), (3,2), (4,3),
(1,1) reach the diagonal case (the test suite's "order dependent" case),
where only the x-splitting candidate matches the angular order. -/
theorem projectable_diagonal_case_witness :
    (y_candidate_rot [Pixel.mk 0 0, ⟨3, 2⟩, ⟨4, 3⟩, ⟨1, 1⟩]
        ∧ ¬ x_candidate_rot [Pixel.mk 0 0, ⟨3, 2⟩, ⟨4, 3⟩, ⟨1, 1⟩] →
      projectable [Pixel.mk 0 0, ⟨3, 2⟩, ⟨4, 3⟩, ⟨1, 1⟩]
        = some (ysplit_assign (psortY [Pixel.mk 0 0, ⟨3, 2⟩, ⟨4, 3⟩, ⟨1, 1⟩])))
    ∧ (x_candidate_rot [Pixel.mk 0 0, ⟨3, 2⟩, ⟨4, 3⟩, ⟨1, 1⟩]
        ∧ ¬ y_candidate_rot [Pixel.mk 0 0, ⟨3, 2⟩, ⟨4, 3⟩, ⟨1, 1⟩] →
      projectable [Pixel.mk 0 0, ⟨3, 2⟩, ⟨4, 3⟩, ⟨1, 1⟩]
        = some (xsplit_assign (psortX [Pixel.mk 0 0, ⟨3, 2⟩, ⟨4, 3⟩, ⟨1, 1⟩])))
    ∧ ((x_candidate_rot [Pixel.mk 0 0, ⟨3, 2⟩, ⟨4, 3⟩, ⟨1, 1⟩]
        ↔ y_candidate_rot [Pixel.mk 0 0, ⟨3, 2⟩, ⟨4, 3⟩, ⟨1, 1⟩]) →
      projectable [Pixel.mk 0 0, ⟨3, 2⟩, ⟨4, 3⟩, ⟨1, 1⟩] = none)
    ∧ ((∃ r, projectable [Pixel.mk 0 0, ⟨3, 2⟩, ⟨4, 3⟩, ⟨1, 1⟩] = some r) ↔
        ¬ (x_candidate_rot [Pixel.mk 0 0, ⟨3, 2⟩, ⟨4, 3⟩, ⟨1, 1⟩]
           ↔ y_candidate_rot [Pixel.mk 0 0, ⟨3, 2⟩, ⟨4, 3⟩, ⟨1, 1⟩])) :=
  projectable_diagonal_case [Pixel.mk 0 0, ⟨3, 2⟩, ⟨4, 3⟩, ⟨1, 1⟩]
    (by decide) (by decide) (by decide) (by decide)

/-! Claim C6: the forward-mapping pass — scan order, destination formula,
in-bounds writes, and last-write-wins. -/

/-- Flat indices of distinct in-bounds cells are distinct. -/
theorem cellIdx_inj (sw : Int) (x1 y1 x2 y2 : Int)
    (h1 : 0 ≤ x1) (h1' : x1 < sw) (h2 : 0 ≤ x2) (h2' : x2 < sw)
    (hne : (x1, y1) ≠ (x2, y2)) : y1 * sw + x1 ≠ y2 * sw + x2 := by
  intro heq
  rcases lt_trichotomy y1 y2 with hy | hy | hy
  · have hstep : sw ≤ (y2 - y1) * sw :=
      le_mul_of_one_le_left (by omega) (by omega)
    have hexp : (y2 - y1) * sw = y2 * sw - y1 * sw := by ring
    linarith
  · subst hy
    have hx : x1 = x2 := by linarith
    exact hne (by rw [hx])
  · have hstep : sw ≤ (y1 - y2) * sw :=
      le_mul_of_one_le_left (by omega) (by omega)
    have hexp : (y1 - y2) * sw = y1 * sw - y2 * sw := by ring
    linarith

/-- The flat index of an in-bounds cell lies in `[0, sw * sh)`. -/
theorem cellIdx_range (sw sh x y : Int)
    (hx : 0 ≤ x) (hx' : x < sw) (hy : 0 ≤ y) (hy' : y < sh) :
    0 ≤ y * sw + x ∧ y * sw + x < sw * sh := by
  constructor
  · have := mul_nonneg hy (by omega : (0 : Int) ≤ sw)
    omega
  · have h1 : (y + 1) * sw ≤ sh * sw :=
      mul_le_mul_of_nonneg_right (by omega) (by omega)
    have h2 : (y + 1) * sw = y * sw + sw := by ring
    have h3 : sh * sw = sw * sh := mul_comm _ _
    omega

/-- State of the forward fold at one in-bounds destination cell: the mask
records whether the cell was hit, and the sink holds the color of the last
source pixel that hit it. -/
theorem forward_fold_cell (m : List ℚ) (sw sh bw : Int) (bg : Int → Color)
    (u v : Int) (hu : 0 ≤ u) (hu2 : u < sw) (hv : 0 ≤ v) (hv2 : v < sh)
    (L : List (Int × Int)) (s0 : Int → Color) (m0 : Int → Bool) :
    ((L.foldl (forward_step m sw sh bw bg) (s0, m0)).2 (v * sw + u)
        = (m0 (v * sw + u)
            || !(L.filter (fun p => decide (destPixel m p.1 p.2 = (u, v)))).isEmpty))
    ∧ ((L.foldl (forward_step m sw sh bw bg) (s0, m0)).1 (v * sw + u)
        = ((L.filter (fun p => decide (destPixel m p.1 p.2 = (u, v)))).getLast?.elim
            (s0 (v * sw + u)) (fun p => bg (p.2 * bw + p.1)))) := by
  induction L using List.reverseRecOn with
  | nil => simp
  | append_singleton L p ih =>
    rw [List.foldl_append, List.filter_append]
    simp only [List.foldl_cons, List.foldl_nil]
    by_cases hp : destPixel m p.1 p.2 = (u, v)
    · have hfil : List.filter (fun p => decide (destPixel m p.1 p.2 = (u, v))) [p] = [p] := by
        simp [List.filter, hp]
      rw [hfil]
      have hbound : 0 ≤ (destPixel m p.1 p.2).1 ∧ 0 ≤ (destPixel m p.1 p.2).2
          ∧ (destPixel m p.1 p.2).1 < sw ∧ (destPixel m p.1 p.2).2 < sh := by
        rw [hp]; exact ⟨hu, hv, hu2, hv2⟩
      have hstep : forward_step m sw sh bw bg
          (L.foldl (forward_step m sw sh bw bg) (s0, m0)) p
          = (updColor (L.foldl (forward_step m sw sh bw bg) (s0, m0)).1
               (v * sw + u) (bg (p.2 * bw + p.1)),
             updBool (L.foldl (forward_step m sw sh bw bg) (s0, m0)).2
               (v * sw + u) true) := by
        unfold forward_step
        rw [if_pos hbound, hp]
      rw [hstep]
      constructor
      · simp [updBool, List.getLast?_concat]
      · simp [updColor, List.getLast?_concat]
    · have hfil : List.filter (fun p => decide (destPixel m p.1 p.2 = (u, v))) [p] = [] := by
        simp [List.filter, hp]
      rw [hfil, List.append_nil]
      have hkeep : ∀ g : (Int → Color) × (Int → Bool),
          (forward_step m sw sh bw bg g p).1 (v * sw + u) = g.1 (v * sw + u)
          ∧ (forward_step m sw sh bw bg g p).2 (v * sw + u) = g.2 (v * sw + u) := by
        intro g
        unfold forward_step
        by_cases hb : 0 ≤ (destPixel m p.1 p.2).1 ∧ 0 ≤ (destPixel m p.1 p.2).2
            ∧ (destPixel m p.1 p.2).1 < sw ∧ (destPixel m p.1 p.2).2 < sh
        · rw [if_pos hb]
          have hne : (destPixel m p.1 p.2).2 * sw + (destPixel m p.1 p.2).1
              ≠ v * sw + u := by
            refine cellIdx_inj sw _ _ u v hb.1 hb.2.2.1 hu hu2 ?_
            intro hc
            exact hp (by rw [← hc])
          constructor
          · simp only [updColor]
            rw [if_neg (fun hc => hne hc.symm)]
          · simp only [updBool]
            rw [if_neg (fun hc => hne hc.symm)]
        · rw [if_neg hb]
          exact ⟨rfl, rfl⟩
      obtain ⟨hk1, hk2⟩ := hkeep (L.foldl (forward_step m sw sh bw bg) (s0, m0))
      rw [hk1, hk2, ih.1, ih.2]
      exact ⟨rfl, rfl⟩

/-- The forward fold never touches indices outside `[0, sw * sh)`. -/
theorem forward_fold_outside (m : List ℚ) (sw sh bw : Int) (bg : Int → Color)
    (L : List (Int × Int)) (s0 : Int → Color) (m0 : Int → Bool) (i : Int)
    (hi : i < 0 ∨ sw * sh ≤ i) :
    (L.foldl (forward_step m sw sh bw bg) (s0, m0)).1 i = s0 i
    ∧ (L.foldl (forward_step m sw sh bw bg) (s0, m0)).2 i = m0 i := by
  induction L generalizing s0 m0 with
  | nil => exact ⟨rfl, rfl⟩
  | cons p L ih =>
    rw [List.foldl_cons]
    have hkeep : (forward_step m sw sh bw bg (s0, m0) p).1 i = s0 i
        ∧ (forward_step m sw sh bw bg (s0, m0) p).2 i = m0 i := by
      unfold forward_step
      by_cases hb : 0 ≤ (destPixel m p.1 p.2).1 ∧ 0 ≤ (destPixel m p.1 p.2).2
          ∧ (destPixel m p.1 p.2).1 < sw ∧ (destPixel m p.1 p.2).2 < sh
      · rw [if_pos hb]
        have hr := cellIdx_range sw sh (destPixel m p.1 p.2).1 (destPixel m p.1 p.2).2
          hb.1 hb.2.2.1 hb.2.1 hb.2.2.2
        have hne : i ≠ (destPixel m p.1 p.2).2 * sw + (destPixel m p.1 p.2).1 := by
          omega
        constructor
        · simp only [updColor]
          rw [if_neg hne]
        · simp only [updBool]
          rw [if_neg hne]
      · rw [if_neg hb]
        exact ⟨rfl, rfl⟩
    have := ih (forward_step m sw sh bw bg (s0, m0) p).1
      (forward_step m sw sh bw bg (s0, m0) p).2
    rw [← hkeep.1, ← hkeep.2]
    simpa using this

/-- The scan order is strictly lexicographic: x outer ascending, y inner
ascending. -/
theorem scanList_pairwise (w h : Int) : List.Pairwise lexLt (scanList w h) := by
  unfold scanList
  rw [List.pairwise_flatMap]
  constructor
  · intro a ha
    refine List.Pairwise.map (fun j : Nat => (Int.ofNat a, Int.ofNat j)) ?_
      (List.pairwise_lt_range h.toNat)
    intro j1 j2 hj
    exact Or.inr ⟨rfl, show Int.ofNat j1 < Int.ofNat j2 from Int.ofNat_lt.mpr hj⟩
  · refine (List.pairwise_lt_range w.toNat).imp ?_
    intro i1 i2 h12 x hx y hy
    simp only [List.mem_map, List.mem_range] at hx hy
    obtain ⟨j1, -, rfl⟩ := hx
    obtain ⟨j2, -, rfl⟩ := hy
    exact Or.inl (show Int.ofNat i1 < Int.ofNat i2 from Int.ofNat_lt.mpr h12)

/-- In a lex-increasing list, the last element is the lexicographic maximum. -/
theorem pairwise_getLast_max :
    ∀ (l : List (Int × Int)), List.Pairwise lexLt l →
      ∀ (p : Int × Int), l.getLast? = some p → ∀ q ∈ l, q = p ∨ lexLt q p
  | [], _, p, hl => by simp at hl
  | [x], _, p, hl => by
    simp only [List.getLast?_singleton, Option.some.injEq] at hl
    subst hl
    intro q hq
    simp only [List.mem_singleton] at hq
    exact Or.inl hq
  | x :: y :: t, hp, p, hl => by
    have hl2 : (y :: t).getLast? = some p := by
      rw [List.getLast?_cons_cons] at hl
      exact hl
    intro q hq
    rcases List.mem_cons.mp hq with rfl | hq2
    · right
      have hpmem : p ∈ y :: t := by
        have := List.mem_getLast?_eq_getLast (l := y :: t) (x := p) (by rw [hl2]; rfl)
        obtain ⟨hne, rfl⟩ := this
        exact List.getLast_mem hne
      exact (List.pairwise_cons.mp hp).1 p hpmem
    · exact pairwise_getLast_max (y :: t) (List.pairwise_cons.mp hp).2 p hl2 q hq2

/-- C6: the forward-mapping pass visits source pixels with x as the outer
ascending loop and y as the inner ascending loop (the scan order is strictly
lexicographic); each source pixel is sent through the matrix, divided by the
third homogeneous component and rounded half away from zero (`destPixel`);
only in-bounds destination cells are written and marked; a cell is marked
iff some source pixel reaches it; its final color is the one of the
lexicographically last source pixel reaching it; and unwritten or
out-of-range cells keep their initial contents. The hypothesis `hw` records
that every homogeneous third component is nonzero (the C division is
undefined otherwise). -/
theorem forward_pass_spec (m : List ℚ) (sw sh bw bh : Int)
    (bg sink0 : Int → Color) (u v : Int)
    (hu : 0 ≤ u) (hu2 : u < sw) (hv : 0 ≤ v) (hv2 : v < sh)
    (hw : ∀ p ∈ scanList bw bh, (applyMatrix m (p.1 : ℚ) (p.2 : ℚ)).2.2 ≠ 0) :
    List.Pairwise lexLt (scanList bw bh)
    ∧ (forward_pass m sw sh bw bh bg sink0).2 (v * sw + u)
        = !(hitList m bw bh u v).isEmpty
    ∧ (hitList m bw bh u v = [] →
        (forward_pass m sw sh bw bh bg sink0).1 (v * sw + u) = sink0 (v * sw + u))
    ∧ (∀ p, (hitList m bw bh u v).getLast? = some p →
        (forward_pass m sw sh bw bh bg sink0).1 (v * sw + u) = bg (p.2 * bw + p.1)
          ∧ ∀ q ∈ hitList m bw bh u v, q = p ∨ lexLt q p)
    ∧ (∀ i : Int, i < 0 ∨ sw * sh ≤ i →
        (forward_pass m sw sh bw bh bg sink0).2 i = false
        ∧ (forward_pass m sw sh bw bh bg sink0).1 i = sink0 i) := by
  have hcell := forward_fold_cell m sw sh bw bg u v hu hu2 hv hv2
    (scanList bw bh) sink0 (fun _ => false)
  refine ⟨scanList_pairwise bw bh, ?_, ?_, ?_, ?_⟩
  · rw [show (forward_pass m sw sh bw bh bg sink0) =
        (scanList bw bh).foldl (forward_step m sw sh bw bg) (sink0, fun _ => false)
        from rfl]
    rw [hcell.1]
    simp [hitList]
  · intro hnil
    rw [show (forward_pass m sw sh bw bh bg sink0) =
        (scanList bw bh).foldl (forward_step m sw sh bw bg) (sink0, fun _ => false)
        from rfl]
    rw [hcell.2]
    have : (scanList bw bh).filter (fun p => decide (destPixel m p.1 p.2 = (u, v))) = [] := hnil
    rw [this]
    rfl
  · intro p hlast
    have hlast2 : ((scanList bw bh).filter
        (fun p => decide (destPixel m p.1 p.2 = (u, v)))).getLast? = some p := hlast
    constructor
    · rw [show (forward_pass m sw sh bw bh bg sink0) =
          (scanList bw bh).foldl (forward_step m sw sh bw bg) (sink0, fun _ => false)
          from rfl]
      rw [hcell.2, hlast2]
      rfl
    · intro q hq
      exact pairwise_getLast_max _ ((scanList_pairwise bw bh).filter _) p hlast2 q hq
  · intro i hi
    have := forward_fold_outside m sw sh bw bg (scanList bw bh) sink0 (fun _ => false) i hi
    exact ⟨this.2, this.1⟩

/-- Witness for C6 at a concrete input: the identity matrix on a 2×2 source
into a 2×2 sink; cell (1,1) receives exactly the pixel (1,1). -/
theorem forward_pass_spec_witness :
    List.Pairwise lexLt (scanList 2 2)
    ∧ (forward_pass [1, 0, 0, 0, 1, 0, 0, 0, 1] 2 2 2 2
          (fun i => ⟨i.toNat, 0, 0, 0⟩) (fun _ => ⟨9, 9, 9, 9⟩)).2 (1 * 2 + 1)
        = !(hitList [1, 0, 0, 0, 1, 0, 0, 0, 1] 2 2 1 1).isEmpty
    ∧ (hitList [1, 0, 0, 0, 1, 0, 0, 0, 1] 2 2 1 1 = [] →
        (forward_pass [1, 0, 0, 0, 1, 0, 0, 0, 1] 2 2 2 2
            (fun i => ⟨i.toNat, 0, 0, 0⟩) (fun _ => ⟨9, 9, 9, 9⟩)).1 (1 * 2 + 1)
          = (fun _ => (⟨9, 9, 9, 9⟩ : Color)) (1 * 2 + 1))
    ∧ (∀ p, (hitList [1, 0, 0, 0, 1, 0, 0, 0, 1] 2 2 1 1).getLast? = some p →
        (forward_pass [1, 0, 0, 0, 1, 0, 0, 0, 1] 2 2 2 2
            (fun i => ⟨i.toNat, 0, 0, 0⟩) (fun _ => ⟨9, 9, 9, 9⟩)).1 (1 * 2 + 1)
          = (fun i : Int => (⟨i.toNat, 0, 0, 0⟩ : Color)) (p.2 * 2 + p.1)
          ∧ ∀ q ∈ hitList [1, 0, 0, 0, 1, 0, 0, 0, 1] 2 2 1 1, q = p ∨ lexLt q p)
    ∧ (∀ i : Int, i < 0 ∨ 2 * 2 ≤ i →
        (forward_pass [1, 0, 0, 0, 1, 0, 0, 0, 1] 2 2 2 2
            (fun i => ⟨i.toNat, 0, 0, 0⟩) (fun _ => ⟨9, 9, 9, 9⟩)).2 i = false
        ∧ (forward_pass [1, 0, 0, 0, 1, 0, 0, 0, 1] 2 2 2 2
            (fun i => ⟨i.toNat, 0, 0, 0⟩) (fun _ => ⟨9, 9, 9, 9⟩)).1 i
          = (fun _ : Int => (⟨9, 9, 9, 9⟩ : Color)) i) :=
  forward_pass_spec [1, 0, 0, 0, 1, 0, 0, 0, 1] 2 2 2 2
    (fun i => ⟨i.toNat, 0, 0, 0⟩) (fun _ => ⟨9, 9, 9, 9⟩) 1 1
    (by decide) (by decide) (by decide) (by decide)
    (by with_unfolding_all decide)

/-! Claim C8: termination of the gap-filling search. -/

/-- `for (i = lo; i <= hi; i += hi - lo)` visits exactly the two border values
when `lo < hi`. -/
theorem borderIter_of_lt {lo hi : Int} (h : lo < hi) :
    borderIter lo hi = some [lo, hi] := by
  unfold borderIter
  rw [if_neg (by omega), if_neg (by omega)]

/-- On a sink of width (resp. height) at least 2, the clipped window of any
positive radius around an in-bounds pixel is nondegenerate. -/
theorem winLo_lt_winHi {bound v r : Int} (hb : 2 ≤ bound) (h0 : 0 ≤ v)
    (h1 : v < bound) (hr : 1 ≤ r) : winLo v r < winHi bound v r := by
  unfold winLo winHi
  split_ifs <;> omega

/-- With a nondegenerate clipped window, the border scan does not hang. -/
theorem borderScan_isSome (mask : Int → Bool) (sink : Int → Color)
    (w h x y r : Int) (hxx : winLo x r < winHi w x r)
    (hyy : winLo y r < winHi h y r) :
    ∃ res, borderScan mask sink w h x y r = some res := by
  simp only [borderScan, borderIter_of_lt hxx, borderIter_of_lt hyy]
  exact ⟨_, rfl⟩

/-- The count accumulated by the border fold is the number of sampled cells
whose flat index is marked. -/
theorem addCell_foldl_count (mask : Int → Bool) (sink : Int → Color) (w : Int) :
    ∀ (cells : List (Int × Int)) (acc : Nat × ChanSums),
      (cells.foldl (addCell mask sink w) acc).1
        = acc.1 + cells.countP (fun c => mask (c.2 * w + c.1)) := by
  intro cells
  induction cells with
  | nil => intro acc; simp
  | cons c cs ih =>
    intro acc
    rw [List.foldl_cons, ih, List.countP_cons]
    have hstep : (addCell mask sink w acc c).1
        = acc.1 + (if mask (c.2 * w + c.1) then 1 else 0) := by
      unfold addCell
      by_cases hm : mask (c.2 * w + c.1) <;> simp [hm]
    rw [hstep]
    by_cases hm : mask (c.2 * w + c.1) <;> simp [hm] <;> omega

/-- Membership in the inclusive integer range. -/
theorem mem_intRange {lo hi a : Int} : a ∈ intRange lo hi ↔ lo ≤ a ∧ a ≤ hi := by
  unfold intRange
  constructor
  · intro hmem
    obtain ⟨k, hk, hdef⟩ := List.mem_map.mp hmem
    rw [List.mem_range] at hk
    have hdef' : lo + (k : Int) = a := hdef
    omega
  · rintro ⟨h1, h2⟩
    refine List.mem_map.mpr ⟨(a - lo).toNat, ?_, ?_⟩
    · rw [List.mem_range]; omega
    · show lo + (((a - lo).toNat : Nat) : Int) = a
      omega

/-- A marked pixel lying on the clipped window border makes the scan at that
radius succeed with a positive count. -/
theorem borderScan_pos (mask : Int → Bool) (sink : Int → Color)
    (w h x y r mx my : Int)
    (hxx : winLo x r < winHi w x r) (hyy : winLo y r < winHi h y r)
    (hmark : mask (my * w + mx) = true)
    (hon : ((mx = winLo x r ∨ mx = winHi w x r)
              ∧ winLo y r ≤ my ∧ my ≤ winHi h y r)
         ∨ ((my = winLo y r ∨ my = winHi h y r)
              ∧ winLo x r ≤ mx ∧ mx ≤ winHi w x r)) :
    ∃ cnt sums, borderScan mask sink w h x y r = some (cnt, sums) ∧ 0 < cnt := by
  simp only [borderScan, borderIter_of_lt hxx, borderIter_of_lt hyy]
  refine ⟨_, _, rfl, ?_⟩
  rw [addCell_foldl_count]
  have hmem : (mx, my) ∈
      ([winLo x r, winHi w x r].flatMap
        (fun i => (intRange (winLo y r) (winHi h y r)).map (fun j => (i, j))))
      ++ ([winLo y r, winHi h y r].flatMap
        (fun j => (intRange (winLo x r) (winHi w x r)).map (fun i => (i, j)))) := by
    rw [List.mem_append]
    rcases hon with ⟨hmx, hy1, hy2⟩ | ⟨hmy, hx1, hx2⟩
    · refine Or.inl (List.mem_flatMap.mpr ⟨mx, ?_, List.mem_map.mpr
        ⟨my, mem_intRange.mpr ⟨hy1, hy2⟩, rfl⟩⟩)
      rcases hmx with h | h <;> simp [h]
    · refine Or.inr (List.mem_flatMap.mpr ⟨my, ?_, List.mem_map.mpr
        ⟨mx, mem_intRange.mpr ⟨hx1, hx2⟩, rfl⟩⟩)
      rcases hmy with h | h <;> simp [h]
  have hpos : 0 < (([winLo x r, winHi w x r].flatMap
        (fun i => (intRange (winLo y r) (winHi h y r)).map (fun j => (i, j))))
      ++ ([winLo y r, winHi h y r].flatMap
        (fun j => (intRange (winLo x r) (winHi w x r)).map (fun i => (i, j))))).countP
      (fun c : Int × Int => mask (c.2 * w + c.1)) :=
    List.countP_pos_iff.mpr ⟨(mx, my), hmem, hmark⟩
  omega

/-- The radius loop with fuel `F` starting at radius `r0`: if every radius
scans without hanging and some radius within the fuel has a positive count,
the search stops exactly at the first radius with a positive count. -/
theorem searchAux_finds (mask : Int → Bool) (sink : Int → Color)
    (w h x y : Int)
    (hscan : ∀ r : Int, 1 ≤ r → ∃ res, borderScan mask sink w h x y r = some res) :
    ∀ (F : Nat) (r0 : Int), 1 ≤ r0 →
      (∃ k : Nat, k < F ∧ ∃ cnt sums,
          borderScan mask sink w h x y (r0 + k) = some (cnt, sums) ∧ 0 < cnt) →
      ∃ rs cnt sums,
        searchAux mask sink w h x y F r0 = some (rs, cnt, sums)
        ∧ 0 < cnt
        ∧ borderScan mask sink w h x y rs = some (cnt, sums)
        ∧ r0 ≤ rs
        ∧ ∀ r', r0 ≤ r' → r' < rs →
            ∃ sums', borderScan mask sink w h x y r' = some (0, sums') := by
  intro F
  induction F with
  | zero =>
    rintro r0 _ ⟨k, hk, -⟩
    omega
  | succ f ih =>
    rintro r0 hr0 ⟨k, hk, cnt, sums, hbs, hcnt⟩
    obtain ⟨res, hres⟩ := hscan r0 hr0
    obtain ⟨c, s⟩ := res
    by_cases hc : c = 0
    · subst hc
      have hk0 : k ≠ 0 := by
        intro h0
        subst h0
        rw [show r0 + ((0 : Nat) : Int) = r0 by omega, hres] at hbs
        injection hbs with hbs
        have h0 : (0 : Nat) = cnt := congrArg Prod.fst hbs
        omega
      obtain ⟨k', rfl⟩ : ∃ k', k = k' + 1 := ⟨k - 1, by omega⟩
      obtain ⟨rs, cnt', sums', hsa, hcnt', hbs', hle', hmin'⟩ :=
        ih (r0 + 1) (by omega)
          ⟨k', by omega, cnt, sums, by rw [show r0 + 1 + (k' : Int) = r0 + ((k' + 1 : Nat) : Int) by push_cast; ring]; exact hbs, hcnt⟩
      refine ⟨rs, cnt', sums', ?_, hcnt', hbs', by omega, ?_⟩
      · simp only [searchAux, hres]
        exact hsa
      · intro r' h1 h2
        rcases eq_or_lt_of_le h1 with rfl | h1'
        · exact ⟨s, hres⟩
        · exact hmin' r' (by omega) h2
    · refine ⟨r0, c, s, ?_, Nat.pos_of_ne_zero hc, hres, le_refl _, ?_⟩
      · simp only [searchAux, hres, if_neg hc]
      · intro r' h1 h2
        omega

/-- C8: amended termination theorem for the gap-filling search. The claim as
stated is refuted by `gap_search_diverges`; it holds under the amended
premises that the sink is at least 2×2 and some in-bounds destination pixel
`(mx, my)` was marked. Then for every unmarked in-bounds pixel `(x, y)` the
expanding-window search terminates: it returns the first radius whose clipped
border contains a marked pixel, with a positive count, and every smaller
radius scanned zero marked pixels. -/
theorem interp_search_terminates (mask : Int → Bool) (sink : Int → Color)
    (w h x y mx my : Int)
    (hw : 2 ≤ w) (hh : 2 ≤ h)
    (hx0 : 0 ≤ x) (hx1 : x < w) (hy0 : 0 ≤ y) (hy1 : y < h)
    (hmx0 : 0 ≤ mx) (hmx1 : mx < w) (hmy0 : 0 ≤ my) (hmy1 : my < h)
    (hmark : mask (my * w + mx) = true)
    (hhole : mask (y * w + x) = false) :
    ∃ rs cnt sums,
      interp_search mask sink w h x y = some (rs, cnt, sums)
      ∧ 0 < cnt
      ∧ borderScan mask sink w h x y rs = some (cnt, sums)
      ∧ 1 ≤ rs
      ∧ ∀ r', 1 ≤ r' → r' < rs →
          ∃ sums', borderScan mask sink w h x y r' = some (0, sums') := by
  have hne : mx ≠ x ∨ my ≠ y := by
    by_contra hcon
    push_neg at hcon
    rw [hcon.1, hcon.2] at hmark
    rw [hmark] at hhole
    simp at hhole
  have hscan : ∀ r : Int, 1 ≤ r →
      ∃ res, borderScan mask sink w h x y r = some res := fun r hr =>
    borderScan_isSome mask sink w h x y r
      (winLo_lt_winHi hw hx0 hx1 hr) (winLo_lt_winHi hh hy0 hy1 hr)
  set rstar : Int := max (max (mx - x) (x - mx)) (max (my - y) (y - my)) with hrstar
  have hr1 : 1 ≤ rstar := by omega
  have hon : ((mx = winLo x rstar ∨ mx = winHi w x rstar)
        ∧ winLo y rstar ≤ my ∧ my ≤ winHi h y rstar)
      ∨ ((my = winLo y rstar ∨ my = winHi h y rstar)
        ∧ winLo x rstar ≤ mx ∧ mx ≤ winHi w x rstar) := by
    unfold winLo winHi
    split_ifs <;> omega
  have hhit := borderScan_pos mask sink w h x y rstar mx my
    (winLo_lt_winHi hw hx0 hx1 hr1) (winLo_lt_winHi hh hy0 hy1 hr1) hmark hon
  obtain ⟨cnt, sums, hbs, hcnt⟩ := hhit
  have hmain := searchAux_finds mask sink w h x y hscan (searchFuel w h) 1
    (by omega)
    ⟨(rstar - 1).toNat, by unfold searchFuel; omega,
     cnt, sums, by rw [show (1 : Int) + ((rstar - 1).toNat : Int) = rstar by omega]; exact hbs, hcnt⟩
  exact hmain

/-- C8, counterexample to the claim as stated: an anchor set that the
classifier accepts (a 10-offset square), a matrix `make_transform_matrix` can
produce for destination size 2×2, and a 1×1 source whose only pixel lands out
of bounds, so the forward pass marks nothing and the very first gap search
scans forever without finding a marked pixel: `perspector` hangs. -/
theorem gap_search_diverges :
    projectable [⟨10, 10⟩, ⟨20, 10⟩, ⟨20, 20⟩, ⟨10, 20⟩]
        = some ⟨⟨10, 10⟩, ⟨20, 10⟩, ⟨20, 20⟩, ⟨10, 20⟩⟩
    ∧ make_transform_matrix [⟨10, 10⟩, ⟨20, 10⟩, ⟨20, 20⟩, ⟨10, 20⟩] 2 2
        [1/5, 0, -2, 0, 1/5, -2, 0, 0, 1]
    ∧ perspector [1/5, 0, -2, 0, 1/5, -2, 0, 0, 1]
        [⟨10, 10⟩, ⟨20, 10⟩, ⟨20, 20⟩, ⟨10, 20⟩]
        (fun _ => ⟨0, 0, 0, 0⟩) 2 2 (fun _ => ⟨5, 5, 5, 5⟩) 1 1
      = .error .interpolationHangs := by
  refine ⟨by with_unfolding_all decide, ⟨⟨⟨10, 10⟩, ⟨20, 10⟩, ⟨20, 20⟩, ⟨10, 20⟩⟩,
    by with_unfolding_all decide, by with_unfolding_all decide,
    by with_unfolding_all decide, by with_unfolding_all decide⟩, ?_⟩
  with_unfolding_all rfl

/-- Witness for C8 at a concrete input: the identity matrix maps the single
pixel of a 1×1 source onto cell (0,0) of a 2×2 sink; the search from the
unmarked cell (1,1) terminates at radius 1. -/
theorem interp_search_terminates_witness :
    ∃ rs cnt sums,
      interp_search
        (forward_pass [1, 0, 0, 0, 1, 0, 0, 0, 1] 2 2 1 1
          (fun _ => ⟨1, 2, 3, 4⟩) (fun _ => ⟨0, 0, 0, 0⟩)).2
        (forward_pass [1, 0, 0, 0, 1, 0, 0, 0, 1] 2 2 1 1
          (fun _ => ⟨1, 2, 3, 4⟩) (fun _ => ⟨0, 0, 0, 0⟩)).1
        2 2 1 1 = some (rs, cnt, sums)
      ∧ 0 < cnt
      ∧ borderScan
          (forward_pass [1, 0, 0, 0, 1, 0, 0, 0, 1] 2 2 1 1
            (fun _ => ⟨1, 2, 3, 4⟩) (fun _ => ⟨0, 0, 0, 0⟩)).2
          (forward_pass [1, 0, 0, 0, 1, 0, 0, 0, 1] 2 2 1 1
            (fun _ => ⟨1, 2, 3, 4⟩) (fun _ => ⟨0, 0, 0, 0⟩)).1
          2 2 1 1 rs = some (cnt, sums)
      ∧ 1 ≤ rs
      ∧ ∀ r', 1 ≤ r' → r' < rs →
          ∃ sums', borderScan
              (forward_pass [1, 0, 0, 0, 1, 0, 0, 0, 1] 2 2 1 1
                (fun _ => ⟨1, 2, 3, 4⟩) (fun _ => ⟨0, 0, 0, 0⟩)).2
              (forward_pass [1, 0, 0, 0, 1, 0, 0, 0, 1] 2 2 1 1
                (fun _ => ⟨1, 2, 3, 4⟩) (fun _ => ⟨0, 0, 0, 0⟩)).1
              2 2 1 1 r' = some (0, sums') :=
  interp_search_terminates
    (forward_pass [1, 0, 0, 0, 1, 0, 0, 0, 1] 2 2 1 1
      (fun _ => ⟨1, 2, 3, 4⟩) (fun _ => ⟨0, 0, 0, 0⟩)).2
    (forward_pass [1, 0, 0, 0, 1, 0, 0, 0, 1] 2 2 1 1
      (fun _ => ⟨1, 2, 3, 4⟩) (fun _ => ⟨0, 0, 0, 0⟩)).1
    2 2 1 1 0 0
    (by decide) (by decide) (by decide) (by decide) (by decide) (by decide)
    (by decide) (by decide) (by decide) (by decide)
    (by with_unfolding_all decide) (by with_unfolding_all decide)

/-! Claim C9: the gap-filling pass reads only forward-marked pixels and each
step writes only its own cell. -/

/-- Accumulating a cell reads the raster only at marked indices: two rasters
that agree on every marked index accumulate identically. -/
theorem addCell_congr (mask : Int → Bool) (s1 s2 : Int → Color) (w : Int)
    (hag : ∀ i, mask i = true → s1 i = s2 i)
    (acc : Nat × ChanSums) (c : Int × Int) :
    addCell mask s1 w acc c = addCell mask s2 w acc c := by
  by_cases hm : mask (c.2 * w + c.1)
  · simp [addCell, hm, hag _ hm]
  · simp [addCell, hm]

/-- Fold form of `addCell_congr`. -/
theorem addCell_foldl_congr (mask : Int → Bool) (s1 s2 : Int → Color) (w : Int)
    (hag : ∀ i, mask i = true → s1 i = s2 i) :
    ∀ (cells : List (Int × Int)) (acc : Nat × ChanSums),
      cells.foldl (addCell mask s1 w) acc = cells.foldl (addCell mask s2 w) acc := by
  intro cells
  induction cells with
  | nil => intro acc; rfl
  | cons c cs ih =>
    intro acc
    rw [List.foldl_cons, List.foldl_cons, addCell_congr mask s1 s2 w hag acc c,
      ih]

/-- The border scan depends on the raster only through its marked pixels. -/
theorem borderScan_congr (mask : Int → Bool) (s1 s2 : Int → Color)
    (w h x y r : Int) (hag : ∀ i, mask i = true → s1 i = s2 i) :
    borderScan mask s1 w h x y r = borderScan mask s2 w h x y r := by
  rcases hbx : borderIter (winLo x r) (winHi w x r) with _ | cols <;>
    rcases hby : borderIter (winLo y r) (winHi h y r) with _ | rows <;>
      simp only [borderScan, hbx, hby]
  rw [addCell_foldl_congr mask s1 s2 w hag]

/-- The expanding search depends on the raster only through its marked
pixels. -/
theorem searchAux_congr (mask : Int → Bool) (s1 s2 : Int → Color)
    (w h x y : Int) (hag : ∀ i, mask i = true → s1 i = s2 i) :
    ∀ (F : Nat) (r : Int),
      searchAux mask s1 w h x y F r = searchAux mask s2 w h x y F r := by
  intro F
  induction F with
  | zero => intro r; rfl
  | succ f ih =>
    intro r
    simp only [searchAux]
    rw [borderScan_congr mask s1 s2 w h x y r hag]
    cases borderScan mask s2 w h x y r with
    | none => rfl
    | some p =>
      obtain ⟨c, s⟩ := p
      by_cases hc : c = 0 <;> simp [hc, ih]

/-- The color interpolated for a hole depends on the raster only through its
marked pixels. -/
theorem interp_color_congr (mask : Int → Bool) (s1 s2 : Int → Color)
    (w h : Int) (c : Int × Int) (hag : ∀ i, mask i = true → s1 i = s2 i) :
    interp_color mask s1 w h c = interp_color mask s2 w h c := by
  unfold interp_color interp_search
  rw [searchAux_congr mask s1 s2 w h c.1 c.2 hag]

/-- One gap-filling step leaves every index other than its own cell's
unchanged. -/
theorem gap_step_preserves (mask : Int → Bool) (w h : Int)
    (s s' : Int → Color) (c : Int × Int) (i : Int)
    (hne : c.2 * w + c.1 ≠ i)
    (hstep : gap_step mask w h s c = some s') : s' i = s i := by
  simp only [gap_step] at hstep
  by_cases hm : mask (c.2 * w + c.1)
  · rw [if_pos hm] at hstep
    injection hstep with hstep
    rw [← hstep]
  · rw [if_neg hm] at hstep
    cases hsearch : interp_search mask s w h c.1 c.2 with
    | none => rw [hsearch] at hstep; exact absurd hstep (by simp)
    | some t =>
      obtain ⟨r, cnt, sums⟩ := t
      rw [hsearch] at hstep
      injection hstep with hstep
      rw [← hstep]
      unfold updColor
      rw [if_neg (fun hcon => hne hcon.symm)]

/-- A fold of gap-filling steps over cells whose indices all avoid `i` leaves
index `i` unchanged. -/
theorem gap_fold_preserve (mask : Int → Bool) (w h : Int) :
    ∀ (cells : List (Int × Int)) (s out : Int → Color) (i : Int),
      (∀ c ∈ cells, c.2 * w + c.1 ≠ i) →
      cells.foldlM (gap_step mask w h) s = some out → out i = s i := by
  intro cells
  induction cells with
  | nil =>
    intro s out i _ hfold
    rw [List.foldlM_nil] at hfold
    injection hfold with hfold
    rw [hfold]
  | cons c cs ih =>
    intro s out i hne hfold
    rw [List.foldlM_cons] at hfold
    cases hstep : gap_step mask w h s c with
    | none => rw [hstep] at hfold; exact absurd hfold (by simp)
    | some s' =>
      rw [hstep] at hfold
      have hfold' : cs.foldlM (gap_step mask w h) s' = some out := hfold
      rw [ih s' out i (fun d hd => hne d (List.mem_cons_of_mem c hd)) hfold']
      exact gap_step_preserves mask w h s s' c i (hne c (List.mem_cons_self c cs)) hstep

/-- Main invariant of the gap-filling fold: starting from a raster `s` that
agrees with the forward-pass raster `sinkF` on every marked index, a
successful fold over cells with pairwise-distinct indices (1) never changes a
marked index, and (2) gives each unmarked cell the color interpolated from
the mask and `sinkF` alone. -/
theorem gap_fold_spec (mask : Int → Bool) (w h : Int) (sinkF : Int → Color) :
    ∀ (cells : List (Int × Int)) (s out : Int → Color),
      (∀ i, mask i = true → s i = sinkF i) →
      List.Pairwise (fun c d : Int × Int => c.2 * w + c.1 ≠ d.2 * w + d.1) cells →
      cells.foldlM (gap_step mask w h) s = some out →
      (∀ i, mask i = true → out i = s i)
      ∧ ∀ c ∈ cells, mask (c.2 * w + c.1) = false →
          ∃ col, interp_color mask sinkF w h c = some col
            ∧ out (c.2 * w + c.1) = col := by
  intro cells
  induction cells with
  | nil =>
    intro s out _ _ hfold
    rw [List.foldlM_nil] at hfold
    injection hfold with hfold
    subst hfold
    exact ⟨fun i _ => rfl, fun c hc => absurd hc (List.not_mem_nil c)⟩
  | cons c cs ih =>
    intro s out hag hpw hfold
    rw [List.pairwise_cons] at hpw
    obtain ⟨hhead, htail⟩ := hpw
    rw [List.foldlM_cons] at hfold
    cases hstep : gap_step mask w h s c with
    | none => rw [hstep] at hfold; exact absurd hfold (by simp)
    | some s' =>
      rw [hstep] at hfold
      have hfold' : cs.foldlM (gap_step mask w h) s' = some out := hfold
      simp only [gap_step] at hstep
      by_cases hm : mask (c.2 * w + c.1)
      · rw [if_pos hm] at hstep
        injection hstep with hstep
        subst hstep
        obtain ⟨ih1, ih2⟩ := ih s out hag htail hfold'
        refine ⟨ih1, ?_⟩
        intro d hd hdm
        rcases List.mem_cons.mp hd with rfl | hd'
        · rw [hm] at hdm; exact absurd hdm (by simp)
        · exact ih2 d hd' hdm
      · rw [if_neg hm] at hstep
        cases hsearch : interp_search mask s w h c.1 c.2 with
        | none => rw [hsearch] at hstep; exact absurd hstep (by simp)
        | some t =>
          obtain ⟨r, cnt, sums⟩ := t
          rw [hsearch] at hstep
          injection hstep with hstep
          have hag' : ∀ i, mask i = true → s' i = sinkF i := by
            intro i hi
            rw [← hstep]
            unfold updColor
            rw [if_neg (by intro hcon; rw [hcon] at hi; rw [hi] at hm; exact hm rfl)]
            exact hag i hi
          obtain ⟨ih1, ih2⟩ := ih s' out hag' htail hfold'
          refine ⟨?_, ?_⟩
          · intro i hi
            rw [ih1 i hi, ← hstep]
            unfold updColor
            rw [if_neg (by intro hcon; rw [hcon] at hi; rw [hi] at hm; exact hm rfl)]
          · intro d hd hdm
            rcases List.mem_cons.mp hd with rfl | hd'
            · refine ⟨⟨sums.2.2.1 / cnt, sums.2.1 / cnt, sums.1 / cnt,
                  sums.2.2.2 / cnt⟩, ?_, ?_⟩
              · rw [interp_color_congr mask sinkF s w h d
                    (fun i hi => (hag i hi).symm)]
                unfold interp_color
                rw [hsearch]
              · have hkeep := gap_fold_preserve mask w h cs s' out
                  (d.2 * w + d.1) (fun e he => (hhead e he).symm) hfold'
                rw [hkeep, ← hstep]
                unfold updColor
                rw [if_pos rfl]
            · exact ih2 d hd' hdm

/-- Membership in the scan order is exactly being in bounds. -/
theorem mem_scanList {w h : Int} {u v : Int} :
    (u, v) ∈ scanList w h ↔ (0 ≤ u ∧ u < w) ∧ 0 ≤ v ∧ v < h := by
  unfold scanList
  rw [List.mem_flatMap]
  constructor
  · rintro ⟨i, hi, hmem⟩
    rw [List.mem_range] at hi
    obtain ⟨j, hj, hdef⟩ := List.mem_map.mp hmem
    rw [List.mem_range] at hj
    have h1 : (i : Int) = u := congrArg Prod.fst hdef
    have h2 : (j : Int) = v := congrArg Prod.snd hdef
    omega
  · rintro ⟨⟨hu0, hu1⟩, hv0, hv1⟩
    refine ⟨u.toNat, ?_, List.mem_map.mpr ⟨v.toNat, ?_, ?_⟩⟩
    · rw [List.mem_range]; omega
    · rw [List.mem_range]; omega
    · have h1 : Int.ofNat u.toNat = u := by
        show ((u.toNat : Nat) : Int) = u
        omega
      have h2 : Int.ofNat v.toNat = v := by
        show ((v.toNat : Nat) : Int) = v
        omega
      rw [h1, h2]

/-- The cells of the scan order have pairwise-distinct flat indices. -/
theorem scanList_idx_pairwise (w h : Int) :
    List.Pairwise (fun c d : Int × Int => c.2 * w + c.1 ≠ d.2 * w + d.1)
      (scanList w h) := by
  refine List.Pairwise.imp_of_mem ?_ (scanList_pairwise w h)
  intro c d hc hd hlex
  obtain ⟨cu, cv⟩ := c
  obtain ⟨du, dv⟩ := d
  obtain ⟨⟨hc1, hc2⟩, -⟩ := mem_scanList.mp hc
  obtain ⟨⟨hd1, hd2⟩, -⟩ := mem_scanList.mp hd
  refine cellIdx_inj w cu cv du dv hc1 hc2 hd1 hd2 ?_
  intro hcon
  injection hcon with hcon1 hcon2
  rcases hlex with hlt | ⟨-, hlt⟩ <;> omega

/-- C9: during gap filling, interpolation reads pixels only where the mask
(fixed by the forward pass and never updated) is set, and each step writes
only its own destination cell. Consequently, for a successful gap fill from
the forward-pass raster: marked cells keep their forward-pass color; every
unmarked in-bounds cell receives exactly the color interpolated from the mask
and the forward-pass raster (never from other interpolated holes); indices
outside the scan are untouched; and the interpolated color is invariant under
changing the raster on unmarked pixels. -/
theorem gap_fill_isolated (mask : Int → Bool) (w h : Int)
    (sinkF out : Int → Color)
    (hgf : gap_fill mask w h sinkF = some out) :
    (∀ i, mask i = true → out i = sinkF i)
    ∧ (∀ u v, 0 ≤ u → u < w → 0 ≤ v → v < h → mask (v * w + u) = false →
        ∃ col, interp_color mask sinkF w h (u, v) = some col
          ∧ out (v * w + u) = col)
    ∧ (∀ i, (∀ c ∈ scanList w h, c.2 * w + c.1 ≠ i) → out i = sinkF i)
    ∧ (∀ (s' : Int → Color) (c : Int × Int),
        (∀ i, mask i = true → s' i = sinkF i) →
        interp_color mask s' w h c = interp_color mask sinkF w h c) := by
  unfold gap_fill at hgf
  obtain ⟨h1, h2⟩ := gap_fold_spec mask w h sinkF (scanList w h) sinkF out
    (fun _ _ => rfl) (scanList_idx_pairwise w h) hgf
  refine ⟨h1, ?_, ?_, ?_⟩
  · intro u v hu0 hu1 hv0 hv1 hm
    exact h2 (u, v) (mem_scanList.mpr ⟨⟨hu0, hu1⟩, hv0, hv1⟩) hm
  · intro i hi
    exact gap_fold_preserve mask w h (scanList w h) sinkF out i hi hgf
  · intro s' c hag
    exact interp_color_congr mask s' sinkF w h c hag

/-- Witness for C9 at a concrete input: a 2×2 sink whose cell (0,0) is
marked; the hole (1,1) receives the color interpolated from the marked cell,
and the marked cell keeps its value. -/
theorem gap_fill_isolated_witness :
    gap_fill (fun i => decide (i = 0)) 2 2 (fun _ => ⟨1, 2, 3, 4⟩)
      = some (fun i =>
          ((gap_fill (fun i => decide (i = 0)) 2 2
            (fun _ => ⟨1, 2, 3, 4⟩)).getD (fun _ => ⟨1, 2, 3, 4⟩)) i)
    ∧ ((fun i : Int => decide (i = 0)) 0 = true →
        (fun i =>
          ((gap_fill (fun i => decide (i = 0)) 2 2
            (fun _ => ⟨1, 2, 3, 4⟩)).getD (fun _ => ⟨1, 2, 3, 4⟩)) i) 0
          = (fun _ : Int => (⟨1, 2, 3, 4⟩ : Color)) 0)
    ∧ ((fun i : Int => decide (i = 0)) (1 * 2 + 1) = false →
        ∃ col, interp_color (fun i => decide (i = 0))
            (fun _ => ⟨1, 2, 3, 4⟩) 2 2 (1, 1) = some col
          ∧ (fun i =>
              ((gap_fill (fun i => decide (i = 0)) 2 2
                (fun _ => ⟨1, 2, 3, 4⟩)).getD (fun _ => ⟨1, 2, 3, 4⟩)) i) (1 * 2 + 1)
            = col) := by
  have hgf : gap_fill (fun i => decide (i = 0)) 2 2 (fun _ => ⟨1, 2, 3, 4⟩)
      = some (fun i =>
          ((gap_fill (fun i => decide (i = 0)) 2 2
            (fun _ => ⟨1, 2, 3, 4⟩)).getD (fun _ => ⟨1, 2, 3, 4⟩)) i) := by
    with_unfolding_all rfl
  have hmain := gap_fill_isolated (fun i => decide (i = 0)) 2 2
    (fun _ => ⟨1, 2, 3, 4⟩)
    (fun i =>
      ((gap_fill (fun i => decide (i = 0)) 2 2
        (fun _ => ⟨1, 2, 3, 4⟩)).getD (fun _ => ⟨1, 2, 3, 4⟩)) i) hgf
  exact ⟨hgf, fun hm => hmain.1 0 hm,
    fun hm => hmain.2.1 1 1 (by decide) (by decide) (by decide) (by decide) hm⟩

end Perspector
